import Mathlib

/-!
Verification development for the release-observation and status-aggregation
engine of the helm-controller repository (internal/reconcile/release.go).

The Go source is shallowly embedded: structs become Lean structures,
`map[int]release.Observation` becomes an association list with distinct
keys, Go's `sort.SliceStable` (which is a plain insertion sort for the
slice lengths handled here, below its 20-element block size) becomes an
executable insertion sort that moves each element left past its
neighbours, and the fluxcd runtime `conditions` helpers — external
collaborators, specified only at their interface — are modelled from the
specification's data model: conditions are kept on the object keyed by
type (`Get` finds the condition of a type, `Delete` removes it preserving
the order of the rest, `Set` overwrites the condition of the same type in
place or appends a new one).
-/

/-- Status string of a Kubernetes condition (`metav1.ConditionTrue`). -/
def ConditionTrue : String := "True"

/-- Status string of a Kubernetes condition (`metav1.ConditionFalse`). -/
def ConditionFalse : String := "False"

/-- Condition type `v2.RemediatedCondition`. -/
def RemediatedCondition : String := "Remediated"

/-- Condition type `v2.TestSuccessCondition`. -/
def TestSuccessCondition : String := "TestSuccess"

/-- Condition type `v2.ReleasedCondition`. -/
def ReleasedCondition : String := "Released"

/-- Condition type `meta.ReadyCondition`. -/
def ReadyCondition : String := "Ready"

/-- Condition type `meta.StalledCondition`. -/
def StalledCondition : String := "Stalled"

/-- A status condition as the specification's data model has it:
`(type, status, reason, message, observedGeneration)`; the transition
timestamp plays no role in the verified code and is omitted. -/
structure Condition where
  type : String
  status : String
  reason : String
  message : String
  observedGeneration : Int
deriving Repr, DecidableEq

/-- The `Test` sub-configuration of the object's spec (`v2.Test`),
restricted to the two flags the verified code reads. -/
structure TestSpec where
  enable : Bool
  ignoreFailures : Bool
deriving Repr, DecidableEq

/-- One observed write to the Helm storage (`release.Observation`); the
identity key is (`name`, `nspace`, `version`)  (`nspace` stands for the Go
field `Namespace`).  Modelled from the spec: the store-specific status
fields that a Snapshot merely copies are condensed into `info`. -/
structure Observation where
  name : String
  nspace : String
  version : Int
  info : String
deriving Repr, DecidableEq

/-- Go's zero value for an `Observation`, returned by a map access on a
missing key. -/
instance : Inhabited Observation := ⟨⟨"", "", 0, ""⟩⟩

/-- A persisted history record (`v2.Snapshot`).  Modelled from the spec:
the fields derived from an Observation are its identity key plus `info`;
`testHooks` is the "test hooks executed" marker, absent (`none`) until set. -/
structure Snapshot where
  name : String
  nspace : String
  version : Int
  info : String
  testHooks : Option (List String)
deriving Repr, DecidableEq

/-- The `HelmRelease` object as the verified code sees it: its current
`generation`, the `Test` sub-spec, and the two status collections
`Status.Conditions` and `Status.History`. -/
structure HelmRelease where
  generation : Int
  test : TestSpec
  conditions : List Condition
  history : List Snapshot
deriving Repr, DecidableEq

/-- Modelled from the spec: the fluxcd runtime `conditions.Get` helper,
returning the condition with the given type, if present (conditions are
keyed by type). -/
def getCond (t : String) (conds : List Condition) : Option Condition :=
  conds.find? (fun c => c.type == t)

/-- Modelled from the spec: the fluxcd runtime `conditions.Delete` helper,
removing the condition with the given type and preserving the order of the
remaining conditions. -/
def delCond (t : String) (conds : List Condition) : List Condition :=
  conds.filter (fun c => c.type != t)

/-- Modelled from the spec: the fluxcd runtime `conditions.Set` helper,
overwriting the condition of the same type in place, or appending the
condition when none of that type exists. -/
def setCond (c : Condition) : List Condition → List Condition
  | [] => [c]
  | d :: ds => if d.type == c.type then c :: ds else d :: setCond c ds

/-- Modelled from the spec: the repository's `inStringSlice` helper,
returning the position of the first occurrence of a string in the priority
list together with a found flag (the spec's "priority-list position"). -/
def inStringSlice (ss : List String) (s : String) : Option Nat :=
  match ss with
  | [] => none
  | x :: xs =>
    if x == s then some 0
    else
      match inStringSlice xs s with
      | some i => some (i + 1)
      | none => none

/-- The ordered priority list of summary condition types computed at the
top of `summarize`: `[Remediated, Released]`, or
`[Remediated, TestSuccess, Released]` when tests are enabled and failures
are not ignored. -/
def sumConds (t : TestSpec) : List String :=
  if t.enable && !t.ignoreFailures then
    [RemediatedCondition, TestSuccessCondition, ReleasedCondition]
  else
    [RemediatedCondition, ReleasedCondition]

/-- The comparator passed to `sort.SliceStable` inside `summarize`:
a condition whose type is absent from the priority list is never less;
a condition present in the list is less than one absent from it; between
two conditions present in the list, `i` is less than `j` exactly when
`i`'s observed generation is at least `j`'s and `i`'s position in the
list is earlier. -/
def summLess (sc : List String) (ci cj : Condition) : Bool :=
  match inStringSlice sc ci.type with
  | none => false
  | some iPos =>
    match inStringSlice sc cj.type with
    | none => true
    | some jPos =>
      decide (ci.observedGeneration ≥ cj.observedGeneration) && decide (iPos < jPos)

/-- One insertion step of Go's `insertionSort` (the whole of
`sort.SliceStable` for slices below its 20-element block size): the new
element `x` moves left past each neighbour `y` while `less x y`; the
already-sorted prefix is held in reverse, head = rightmost. -/
def insertRev (less : α → α → Bool) (x : α) : List α → List α
  | [] => [x]
  | y :: ys => if less x y then y :: insertRev less x ys else x :: y :: ys

/-- Insertion sort over a reversed accumulator; elements of the input are
inserted left to right. -/
def sortRevAcc (less : α → α → Bool) : List α → List α → List α
  | racc, [] => racc
  | racc, x :: xs => sortRevAcc less (insertRev less x racc) xs

/-- Go's `sort.SliceStable` as used by `summarize`: a stable insertion
sort (exact for slices shorter than Go's 20-element block size, which
covers every condition sequence the controller produces). -/
def sortStable (less : α → α → Bool) (l : List α) : List α :=
  (sortRevAcc less [] l).reverse

/-- The `Snapshot.Targets` identity test of the v2 API.  Modelled from the
spec: a snapshot matches an identity key when name, namespace and version
all agree. -/
def Snapshot.targets (s : Snapshot) (name nspace : String) (version : Int) : Bool :=
  s.name == name && s.nspace == nspace && s.version == version

/-- The `release.ObservedToSnapshot` derivation.  Modelled from the spec:
a freshly derived Snapshot copies the observation's fields and carries no
test-hooks marker (the marker is not re-derivable from the release
record). -/
def ObservedToSnapshot (o : Observation) : Snapshot :=
  { name := o.name, nspace := o.nspace, version := o.version, info := o.info,
    testHooks := none }

/-- The `observedReleases` map (`map[int]release.Observation`), embedded as
an association list keyed by version; a well-formed set has distinct keys
and each entry's `version` field equal to its key. -/
abbrev ObservedSet : Type := List (Int × Observation)

/-- Go map access `r[ver]`: the entry with the given key, or the zero
`Observation` when the key is missing. -/
def osLookup (r : ObservedSet) (k : Int) : Observation :=
  match List.find? (fun p => p.1 == k) r with
  | some p => p.2
  | none => default

/-- One step of the descending sort of the observed versions. -/
def insertDesc (v : Int) : List Int → List Int
  | [] => [v]
  | x :: xs => if v ≥ x then v :: x :: xs else x :: insertDesc v xs

/-- The `sortedVersions` method: the keys of the observed set in
descending order (`sort.Sort(sort.Reverse(sort.IntSlice(versions)))`). -/
def sortedVersions (r : ObservedSet) : List Int :=
  (List.map Prod.fst r).foldr insertDesc []

/-- The inner loop of `recordOnObject`'s default branch: scan the history
for the first snapshot targeted by the observation; replace it with a
freshly derived snapshot that carries forward the replaced snapshot's
test-hooks marker.  `none` means no snapshot matched. -/
def replaceFirstMatch (obs : Observation) : List Snapshot → Option (List Snapshot)
  | [] => none
  | snap :: tail =>
    if snap.targets obs.name obs.nspace obs.version then
      some ({ ObservedToSnapshot obs with testHooks := snap.testHooks } :: tail)
    else
      match replaceFirstMatch obs tail with
      | some tail' => some (snap :: tail')
      | none => none

/-- The outer loop of `recordOnObject`'s default branch: walk the
remaining versions in descending order and return at the first successful
replacement. -/
def goVersions (r : ObservedSet) (hist : List Snapshot) : List Int → List Snapshot
  | [] => hist
  | ver :: rest =>
    match replaceFirstMatch (osLookup r ver) hist with
    | some hist' => hist'
    | none => goVersions r hist rest

/-- The `observedReleases.recordOnObject` method: no-op on an empty set;
prepend the derived snapshot of the sole entry of a singleton set;
otherwise prepend the snapshot of the highest version and hand the
remaining versions to the replacement scan. -/
def recordOnObject (r : ObservedSet) (obj : HelmRelease) : HelmRelease :=
  match r with
  | [] => obj
  | [(_, o)] => { obj with history := ObservedToSnapshot o :: obj.history }
  | _ :: _ :: _ =>
    match sortedVersions r with
    | [] => obj
    | v0 :: rest =>
      { obj with
        history := goVersions r (ObservedToSnapshot (osLookup r v0) :: obj.history) rest }

/-- The `conditionallyDeleteRemediated` state machine: remove the
Remediated condition once the release is Released (and, when tests are
enabled and failures not ignored, has TestSuccess) at a generation no
older than the remediation. -/
def conditionallyDeleteRemediated (obj : HelmRelease) : HelmRelease :=
  match getCond RemediatedCondition obj.conditions with
  | none => obj
  | some remediated =>
    match getCond ReleasedCondition obj.conditions with
    | none => obj
    | some released =>
      if released.status ≠ ConditionTrue then obj
      else if !obj.test.enable || obj.test.ignoreFailures then
        if released.status = ConditionTrue ∧
            released.observedGeneration ≥ remediated.observedGeneration then
          { obj with conditions := delCond RemediatedCondition obj.conditions }
        else obj
      else
        match getCond TestSuccessCondition obj.conditions with
        | none => obj
        | some testSuccess =>
          if testSuccess.status ≠ ConditionTrue then obj
          else if testSuccess.status = ConditionTrue ∧
              testSuccess.observedGeneration ≥ remediated.observedGeneration then
            { obj with conditions := delCond RemediatedCondition obj.conditions }
          else obj

/-- The first deletion step of `summarize`: drop any stale TestSuccess
condition as soon as tests are disabled. -/
def summarizeDisable (obj : HelmRelease) : HelmRelease :=
  if !obj.test.enable then
    { obj with conditions := delCond TestSuccessCondition obj.conditions }
  else obj

/-- The deletion steps at the top of `summarize`: drop any stale
TestSuccess condition as soon as tests are disabled, then run the
remediation state machine. -/
def summarizePrep (obj : HelmRelease) : HelmRelease :=
  conditionallyDeleteRemediated (summarizeDisable obj)

/-- The Ready status derived from the representative condition: its own
status, except that any remediated state is considered an error. -/
def summarizeStatus (c0 : Condition) : String :=
  if c0.type = RemediatedCondition then ConditionFalse else c0.status

/-- The Ready condition `summarize` sets for the representative `c0`:
the derived status, the representative's reason and message, and the
generation stamp `gen`. -/
def readyFor (gen : Int) (c0 : Condition) : Condition :=
  { type := ReadyCondition, status := summarizeStatus c0,
    reason := c0.reason, message := c0.message,
    observedGeneration := gen }

/-- The tail of `summarize` once a representative `c0` heads the sorted
sequence `c0 :: rest`: store the sorted sequence on the object, delete any
Stalled condition when the resulting status is True, and set Ready with
the representative's reason and message stamped with the generation
`gen`. -/
def summarizeSet (gen : Int) (c0 : Condition) (rest : List Condition)
    (obj2 : HelmRelease) : HelmRelease :=
  { obj2 with
    conditions :=
      setCond (readyFor gen c0)
        (if summarizeStatus c0 = ConditionTrue then
          delCond StalledCondition (c0 :: rest)
        else (c0 :: rest)) }

/-- The `summarize` function: after the deletion steps, stable-sort the
conditions with the summary comparator (a no-op when nothing is left),
take the first element as the representative and finish with
`summarizeSet`, stamping the object's current generation. -/
def summarize (obj : HelmRelease) : HelmRelease :=
  match sortStable (summLess (sumConds obj.test)) (summarizePrep obj).conditions with
  | [] => summarizePrep obj
  | c0 :: rest => summarizeSet obj.generation c0 rest (summarizePrep obj)

/-- The representative condition chosen by `summarize`: the head of the
stable-sorted condition sequence after the deletion steps, when any
condition remains. -/
def representative (obj : HelmRelease) : Option Condition :=
  (sortStable (summLess (sumConds obj.test)) (summarizePrep obj).conditions).head?

/-- The API group of the v2 HelmRelease types (`v2.GroupVersion.Group`). -/
def metaGroup : String := "helm.toolkit.fluxcd.io"

/-- The `eventv1.MetaRevisionKey` constant. -/
def MetaRevisionKey : String := "revision"

/-- The `eventv1.MetaTokenKey` constant. -/
def MetaTokenKey : String := "token"

/-- The `eventMetaGroupKey` helper: a metadata key prefixed with the API
group. -/
def eventMetaGroupKey (key : String) : String :=
  metaGroup ++ "/" ++ key

/-- The `eventMeta` helper (the spec's `buildEventMetadata`): `none` when
both inputs are empty, otherwise a mapping holding the group-prefixed
revision and token keys for the non-empty inputs. -/
def eventMeta (revision token : String) : Option (List (String × String)) :=
  if revision ≠ "" ∨ token ≠ "" then
    some ((if revision ≠ "" then [(eventMetaGroupKey MetaRevisionKey, revision)] else [])
      ++ (if token ≠ "" then [(eventMetaGroupKey MetaTokenKey, token)] else []))
  else
    none

/-- The `eventMessageWithLog` helper (the spec's `composeMessageWithLog`);
the log buffer is `none` for a nil pointer and carries the buffered text
otherwise. -/
def eventMessageWithLog (msg : String) (log : Option String) : String :=
  match log with
  | some l => if l.length > 0 then msg ++ "\n\nLast Helm logs:\n\n" ++ l else msg
  | none => msg

/-! ### Basic facts about the condition-set helpers -/

/-- Absence from a priority list characterises the `none` result of
`inStringSlice`. -/
theorem inStringSlice_eq_none_iff (ss : List String) (s : String) :
    inStringSlice ss s = none ↔ s ∉ ss := by
  induction ss with
  | nil => simp [inStringSlice]
  | cons x xs ih =>
    by_cases hx : x == s
    · simp [inStringSlice, hx, (eq_of_beq hx).symm]
    · have hne : s ≠ x := fun h => absurd (beq_iff_eq.mpr h.symm) (by simpa using hx)
      cases h : inStringSlice xs s with
      | none => simp [inStringSlice, hx, h, hne, ih.mp h]
      | some i =>
        have hmem : s ∈ xs := by
          by_contra hmem
          rw [← ih] at hmem
          rw [hmem] at h
          cases h
        simp [inStringSlice, hx, h, hmem]

/-- A found priority position witnesses membership in the list. -/
theorem mem_of_inStringSlice_some {ss : List String} {s : String} {i : Nat}
    (h : inStringSlice ss s = some i) : s ∈ ss := by
  by_contra hmem
  rw [← inStringSlice_eq_none_iff] at hmem
  simp [hmem] at h

/-- `getCond` returns `none` exactly when no condition of the type is
present. -/
theorem getCond_eq_none_iff (t : String) (l : List Condition) :
    getCond t l = none ↔ ∀ c ∈ l, c.type ≠ t := by
  simp [getCond, List.find?_eq_none]

/-- A found condition is a member with the requested type. -/
theorem getCond_mem {t : String} {l : List Condition} {c : Condition}
    (h : getCond t l = some c) : c ∈ l ∧ c.type = t := by
  refine ⟨List.mem_of_find?_eq_some h, ?_⟩
  have := List.find?_some h
  simpa using this

/-- With type-distinct conditions, `getCond` finds any member of the
requested type. -/
theorem getCond_unique {t : String} {l : List Condition} {c : Condition}
    (hnd : (l.map Condition.type).Nodup) (hc : c ∈ l) (ht : c.type = t) :
    getCond t l = some c := by
  induction l with
  | nil => cases hc
  | cons d ds ih =>
    simp only [List.map_cons, List.nodup_cons] at hnd
    rcases List.mem_cons.mp hc with rfl | hmem
    · simp [getCond, List.find?, ht]
    · have hdt : d.type ≠ t := by
        intro hdt
        apply hnd.1
        have hm : c.type ∈ List.map Condition.type ds :=
          List.mem_map_of_mem Condition.type hmem
        rwa [ht, ← hdt] at hm
      have : (d.type == t) = false := by simp [hdt]
      simpa [getCond, List.find?, this] using ih hnd.2 hmem

/-- Membership in a `delCond` result. -/
theorem mem_delCond {t : String} {l : List Condition} {c : Condition} :
    c ∈ delCond t l ↔ c ∈ l ∧ c.type ≠ t := by
  simp [delCond, List.mem_filter, bne_iff_ne]

/-- Deleting a type that does not occur is a no-op. -/
theorem delCond_eq_self {t : String} {l : List Condition}
    (h : ∀ c ∈ l, c.type ≠ t) : delCond t l = l := by
  simp only [delCond]
  rw [List.filter_eq_self]
  intro c hc
  simpa [bne_iff_ne] using h c hc

/-- `delCond` distributes over append. -/
theorem delCond_append (t : String) (l₁ l₂ : List Condition) :
    delCond t (l₁ ++ l₂) = delCond t l₁ ++ delCond t l₂ := by
  simp [delCond, List.filter_append]

/-- `delCond` keeps a head of a different type. -/
theorem delCond_cons_ne {t : String} {c : Condition} (l : List Condition)
    (h : c.type ≠ t) : delCond t (c :: l) = c :: delCond t l := by
  simp [delCond, List.filter_cons, bne_iff_ne, h]

/-- The result of `delCond` is a sublist. -/
theorem delCond_sublist (t : String) (l : List Condition) :
    (delCond t l).Sublist l :=
  List.filter_sublist l

/-- Setting a condition and then looking its type up finds exactly it. -/
theorem getCond_setCond_self (c : Condition) (l : List Condition) :
    getCond c.type (setCond c l) = some c := by
  induction l with
  | nil => simp [setCond, getCond, List.find?]
  | cons d ds ih =>
    by_cases hd : d.type == c.type
    · simp [setCond, hd, getCond, List.find?]
    · have hne : (d.type == c.type) = false := by simpa using hd
      simpa [setCond, hne, getCond, List.find?] using ih

/-- Setting a condition that is already present with the same value is a
no-op. -/
theorem setCond_eq_self {c : Condition} {l : List Condition}
    (h : getCond c.type l = some c) : setCond c l = l := by
  induction l with
  | nil => simp [getCond, List.find?] at h
  | cons d ds ih =>
    by_cases hd : d.type == c.type
    · have : d = c := by simpa [getCond, List.find?, hd] using h
      simp [setCond, hd, this]
    · have hne : (d.type == c.type) = false := by simpa using hd
      have := ih (by simpa [getCond, List.find?, hne] using h)
      simp [setCond, hne, this]

/-- Every member of a `setCond` result is the new condition or an old
member. -/
theorem mem_setCond_elim {c a : Condition} {l : List Condition}
    (h : a ∈ setCond c l) : a = c ∨ a ∈ l := by
  induction l with
  | nil => simpa [setCond] using h
  | cons d ds ih =>
    by_cases hd : d.type == c.type
    · rcases List.mem_cons.mp (by simpa [setCond, hd] using h) with rfl | hm
      · exact Or.inl rfl
      · exact Or.inr (List.mem_cons_of_mem _ hm)
    · have hne : (d.type == c.type) = false := by simpa using hd
      rcases List.mem_cons.mp (by simpa [setCond, hne] using h) with rfl | hm
      · exact Or.inr (List.mem_cons_self _ _)
      · rcases ih hm with h' | h'
        · exact Or.inl h'
        · exact Or.inr (List.mem_cons_of_mem _ h')

/-- A member whose type differs from the one being set survives
`setCond`. -/
theorem mem_setCond_of_ne {c a : Condition} {l : List Condition}
    (ha : a ∈ l) (hne : a.type ≠ c.type) : a ∈ setCond c l := by
  induction l with
  | nil => cases ha
  | cons d ds ih =>
    by_cases hd : d.type == c.type
    · rcases List.mem_cons.mp ha with rfl | hm
      · exact absurd (by simpa using hd) hne
      · simp only [setCond, hd, if_true]
        exact List.mem_cons_of_mem _ hm
    · have hne' : (d.type == c.type) = false := by simpa using hd
      rcases List.mem_cons.mp ha with rfl | hm
      · simp [setCond, hne']
      · simp only [setCond, hne', if_false, Bool.false_eq_true]
        exact List.mem_cons_of_mem _ (ih hm)

/-- `setCond` over an append acts on the right part when no left element
has the type being set. -/
theorem setCond_append_left {c : Condition} {A B : List Condition}
    (h : ∀ a ∈ A, a.type ≠ c.type) :
    setCond c (A ++ B) = A ++ setCond c B := by
  induction A with
  | nil => rfl
  | cons d ds ih =>
    have hd : (d.type == c.type) = false := by
      simpa using h d (List.mem_cons_self _ _)
    simp only [List.cons_append, setCond, hd, if_false, Bool.false_eq_true]
    exact congrArg (d :: ·) (ih (fun a ha => h a (List.mem_cons_of_mem _ ha)))

/-- `setCond` preserves distinctness of condition types. -/
theorem setCond_nodup {c : Condition} {l : List Condition}
    (h : (l.map Condition.type).Nodup) :
    ((setCond c l).map Condition.type).Nodup := by
  induction l with
  | nil => simp [setCond]
  | cons d ds ih =>
    simp only [List.map_cons, List.nodup_cons] at h
    by_cases hd : d.type == c.type
    · have hdc : d.type = c.type := by simpa using hd
      simp only [setCond, hd, if_true, List.map_cons, List.nodup_cons]
      exact ⟨hdc ▸ h.1, h.2⟩
    · have hne : (d.type == c.type) = false := by simpa using hd
      simp only [setCond, hne, if_false, Bool.false_eq_true, List.map_cons,
        List.nodup_cons]
      refine ⟨?_, ih h.2⟩
      intro hmem
      rcases List.mem_map.mp hmem with ⟨a, ha, hat⟩
      rcases mem_setCond_elim ha with hac | ha'
      · have hdc : d.type = c.type := by rw [← hat, hac]
        simp [hdc] at hne
      · refine h.1 ?_
        rw [← hat]
        exact List.mem_map_of_mem Condition.type ha'

/-! ### Facts about the embedded stable insertion sort -/

/-- Inserting an element permutes it to the front of the multiset. -/
theorem insertRev_perm (less : α → α → Bool) (x : α) (l : List α) :
    List.Perm (insertRev less x l) (x :: l) := by
  induction l with
  | nil => rfl
  | cons y ys ih =>
    by_cases h : less x y
    · simp only [insertRev, h, if_true]
      exact (ih.cons y).trans (List.Perm.swap x y ys)
    · simp only [insertRev, h, if_false, Bool.false_eq_true]
      exact List.Perm.refl _

/-- The accumulator pass permutes the prefix and the remaining input. -/
theorem sortRevAcc_perm (less : α → α → Bool) (xs : List α) :
    ∀ racc, List.Perm (sortRevAcc less racc xs) (racc ++ xs) := by
  induction xs with
  | nil => intro racc; simp [sortRevAcc]
  | cons x xs ih =>
    intro racc
    have h1 := ih (insertRev less x racc)
    have h2 : List.Perm (insertRev less x racc ++ xs) ((x :: racc) ++ xs) :=
      (insertRev_perm less x racc).append_right xs
    have h3 : List.Perm (racc ++ x :: xs) (x :: (racc ++ xs)) := List.perm_middle
    exact h1.trans (h2.trans h3.symm)

/-- The sort is a permutation of its input. -/
theorem sortStable_perm (less : α → α → Bool) (l : List α) :
    List.Perm (sortStable less l) l := by
  have h := sortRevAcc_perm less l []
  simp only [List.nil_append] at h
  exact (List.reverse_perm _).trans h

/-- Membership transfers across the sort. -/
theorem mem_sortStable {less : α → α → Bool} {l : List α} {a : α} :
    a ∈ sortStable less l ↔ a ∈ l :=
  (sortStable_perm less l).mem_iff

/-- Inserting into a reversed prefix whose adjacent pairs never want to
swap back keeps that property, for an asymmetric comparator. -/
theorem insertRev_chain {less : α → α → Bool}
    (hasym : ∀ a b, less a b = true → less b a = false) (x : α) :
    ∀ {racc : List α}, List.Chain' (fun a b => less a b = false) racc →
      List.Chain' (fun a b => less a b = false) (insertRev less x racc) := by
  intro racc
  induction racc with
  | nil => intro _; simp [insertRev]
  | cons y ys ih =>
    intro h
    by_cases hxy : less x y
    · simp only [insertRev, hxy, if_true]
      rw [List.chain'_cons']
      refine ⟨?_, ih h.tail⟩
      intro z hz
      cases ys with
      | nil =>
        simp only [insertRev, List.head?] at hz
        cases hz
        exact hasym x y hxy
      | cons w ws =>
        by_cases hxw : less x w
        · simp only [insertRev, hxw, if_true, List.head?] at hz
          cases hz
          exact (List.chain'_cons.mp h).1
        · simp only [insertRev, hxw, if_false, Bool.false_eq_true, List.head?] at hz
          cases hz
          exact hasym x y hxy
    · simp only [insertRev, hxy, if_false, Bool.false_eq_true]
      rw [List.chain'_cons']
      refine ⟨?_, h⟩
      intro z hz
      simp only [List.head?] at hz
      cases hz
      simpa using hxy

/-- The accumulator pass preserves the no-swap-back property of the
reversed prefix. -/
theorem sortRevAcc_chain {less : α → α → Bool}
    (hasym : ∀ a b, less a b = true → less b a = false) (xs : List α) :
    ∀ {racc : List α}, List.Chain' (fun a b => less a b = false) racc →
      List.Chain' (fun a b => less a b = false) (sortRevAcc less racc xs) := by
  induction xs with
  | nil => intro _ h; exact h
  | cons x xs ih => intro racc h; exact ih (insertRev_chain hasym x h)

/-- Adjacent pairs of the sorted output never want to swap, for an
asymmetric comparator. -/
theorem sortStable_chain {less : α → α → Bool}
    (hasym : ∀ a b, less a b = true → less b a = false) (l : List α) :
    List.Chain' (fun a b => less b a = false) (sortStable less l) := by
  rw [sortStable, List.chain'_reverse]
  exact sortRevAcc_chain hasym l List.chain'_nil

/-- A list whose adjacent pairs never want to swap is left untouched by
the accumulator pass. -/
theorem sortRevAcc_eq_of_chain {less : α → α → Bool} :
    ∀ (xs racc : List α),
      List.Chain' (fun a b => less b a = false) (racc.reverse ++ xs) →
      sortRevAcc less racc xs = xs.reverse ++ racc := by
  intro xs
  induction xs with
  | nil => intro racc _; simp [sortRevAcc]
  | cons x xs ih =>
    intro racc h
    have hstep : insertRev less x racc = x :: racc := by
      cases racc with
      | nil => rfl
      | cons y ys =>
        have hb : less x y = false := by
          rcases List.chain'_append.mp h with ⟨_, _, hbd⟩
          exact hbd y (by simp [List.getLast?_reverse]) x rfl
        simp [insertRev, hb]
    show sortRevAcc less (insertRev less x racc) xs = _
    rw [hstep, ih (x :: racc) (by simpa [List.append_assoc] using h)]
    simp

/-- A list whose adjacent pairs never want to swap is a fixed point of the
sort. -/
theorem sortStable_eq_of_chain {less : α → α → Bool} {l : List α}
    (h : List.Chain' (fun a b => less b a = false) l) :
    sortStable less l = l := by
  rw [sortStable, sortRevAcc_eq_of_chain l [] (by simpa using h)]
  simp

/-- An element that wants to move past the whole block `rB` does so. -/
theorem insertRev_through {less : α → α → Bool} (x : α) :
    ∀ (rB rA : List α), (∀ b ∈ rB, less x b = true) →
      insertRev less x (rB ++ rA) = rB ++ insertRev less x rA := by
  intro rB
  induction rB with
  | nil => intro rA _; rfl
  | cons b bs ih =>
    intro rA h
    have hb := h b (List.mem_cons_self _ _)
    simp only [List.cons_append, insertRev, hb, if_true]
    exact congrArg (b :: ·) (ih rA (fun y hy => h y (List.mem_cons_of_mem _ hy)))

/-- The accumulator pass keeps elements satisfying `P` behind elements not
satisfying it (in the reversed prefix, the not-`P` block comes first),
when not-`P` elements never move and `P` elements always pass them. -/
theorem sortRevAcc_block {less : α → α → Bool} {P : α → Bool}
    (hP1 : ∀ a b, P a = false → less a b = false)
    (hP2 : ∀ a b, P a = true → P b = false → less a b = true) :
    ∀ (xs rB rA : List α), (∀ b ∈ rB, P b = false) → (∀ a ∈ rA, P a = true) →
      ∃ rB' rA', sortRevAcc less (rB ++ rA) xs = rB' ++ rA' ∧
        (∀ b ∈ rB', P b = false) ∧ (∀ a ∈ rA', P a = true) := by
  intro xs
  induction xs with
  | nil => intro rB rA hB hA; exact ⟨rB, rA, rfl, hB, hA⟩
  | cons x xs ih =>
    intro rB rA hB hA
    by_cases hx : P x
    · have hthrough : insertRev less x (rB ++ rA) = rB ++ insertRev less x rA :=
        insertRev_through x rB rA (fun b hb => hP2 x b hx (hB b hb))
      have hA' : ∀ a ∈ insertRev less x rA, P a = true := by
        intro a ha
        rcases List.mem_cons.mp ((insertRev_perm less x rA).mem_iff.mp ha) with rfl | hm
        · exact hx
        · exact hA a hm
      obtain ⟨rB', rA', heq, hB', hA''⟩ := ih rB (insertRev less x rA) hB hA'
      refine ⟨rB', rA', ?_, hB', hA''⟩
      show sortRevAcc less (insertRev less x (rB ++ rA)) xs = rB' ++ rA'
      rw [hthrough]
      exact heq
    · have hx' : P x = false := by simpa using hx
      have hstop : insertRev less x (rB ++ rA) = x :: (rB ++ rA) := by
        cases hc : rB ++ rA with
        | nil => rfl
        | cons y ys => simp [insertRev, hP1 x y hx']
      have hB' : ∀ b ∈ x :: rB, P b = false := by
        intro b hb
        rcases List.mem_cons.mp hb with rfl | hm
        · exact hx'
        · exact hB b hm
      obtain ⟨rB', rA', heq, hBr, hAr⟩ := ih (x :: rB) rA hB' hA
      refine ⟨rB', rA', ?_, hBr, hAr⟩
      show sortRevAcc less (insertRev less x (rB ++ rA)) xs = rB' ++ rA'
      rw [hstop]
      exact heq

/-- The sorted output splits into the block of elements satisfying `P`
followed by the block of those not satisfying it, when not-`P` elements
never move and `P` elements always pass them. -/
theorem sortStable_block {less : α → α → Bool} {P : α → Bool}
    (hP1 : ∀ a b, P a = false → less a b = false)
    (hP2 : ∀ a b, P a = true → P b = false → less a b = true) (l : List α) :
    ∃ A B, sortStable less l = A ++ B ∧
      (∀ a ∈ A, P a = true) ∧ (∀ b ∈ B, P b = false) := by
  obtain ⟨rB', rA', heq, hB', hA'⟩ :=
    sortRevAcc_block hP1 hP2 l [] [] (by simp) (by simp)
  refine ⟨rA'.reverse, rB'.reverse, ?_, ?_, ?_⟩
  · rw [sortStable, show sortRevAcc less [] l = rB' ++ rA' from heq,
      List.reverse_append]
  · intro a ha
    exact hA' a (by simpa using ha)
  · intro b hb
    exact hB' b (by simpa using hb)

/-! ### Facts about the summary comparator and the priority lists -/

/-- A condition absent from the priority list is never less. -/
theorem summLess_absent {sc : List String} {a : Condition}
    (h : inStringSlice sc a.type = none) (b : Condition) :
    summLess sc a b = false := by
  simp [summLess, h]

/-- A condition present in the list is less than one absent from it. -/
theorem summLess_present_absent {sc : List String} {a b : Condition}
    (ha : (inStringSlice sc a.type).isSome = true)
    (hb : inStringSlice sc b.type = none) : summLess sc a b = true := by
  obtain ⟨i, hi⟩ := Option.isSome_iff_exists.mp ha
  simp [summLess, hi, hb]

/-- Between two conditions present in the list, the comparator is the
conjunction of the generation and position tests. -/
theorem summLess_present_present {sc : List String} {a b : Condition} {i j : Nat}
    (ha : inStringSlice sc a.type = some i)
    (hb : inStringSlice sc b.type = some j) :
    (summLess sc a b = true ↔
      a.observedGeneration ≥ b.observedGeneration ∧ i < j) := by
  simp [summLess, ha, hb]

/-- The summary comparator is asymmetric. -/
theorem summLess_asymm (sc : List String) :
    ∀ a b, summLess sc a b = true → summLess sc b a = false := by
  intro a b h
  cases ha : inStringSlice sc a.type with
  | none => rw [summLess_absent ha b] at h; cases h
  | some i =>
    cases hb : inStringSlice sc b.type with
    | none => exact summLess_absent hb a
    | some j =>
      have hij := (summLess_present_present ha hb).mp h
      rw [show summLess sc b a =
        (decide (b.observedGeneration ≥ a.observedGeneration) && decide (j < i))
        from by simp [summLess, ha, hb]]
      have : ¬ (j < i) := Nat.lt_asymm hij.2
      simp [this]

/-- The Stalled type never occurs in a priority list. -/
theorem stalled_not_mem_sumConds (t : TestSpec) :
    StalledCondition ∉ sumConds t := by
  unfold sumConds
  split <;> decide

/-- The Ready type never occurs in a priority list. -/
theorem ready_not_mem_sumConds (t : TestSpec) :
    ReadyCondition ∉ sumConds t := by
  unfold sumConds
  split <;> decide

/-- The Remediated type occurs in every priority list. -/
theorem remediated_mem_sumConds (t : TestSpec) :
    RemediatedCondition ∈ sumConds t := by
  unfold sumConds
  split <;> decide

/-- The TestSuccess type never occurs in the priority list of a spec with
testing disabled. -/
theorem testSuccess_not_mem_sumConds {t : TestSpec} (h : t.enable = false) :
    TestSuccessCondition ∉ sumConds t := by
  simp only [sumConds, h, Bool.false_and, Bool.false_eq_true, if_false]
  decide

/-! ### Shape and frame facts about the mutating steps -/

/-- `conditionallyDeleteRemediated` only rewrites the condition list. -/
theorem cdr_shape (obj : HelmRelease) :
    ∃ cs, conditionallyDeleteRemediated obj = { obj with conditions := cs } := by
  unfold conditionallyDeleteRemediated
  repeat' first
  | exact ⟨_, rfl⟩
  | split

/-- `summarizeDisable` only rewrites the condition list. -/
theorem summarizeDisable_shape (obj : HelmRelease) :
    ∃ cs, summarizeDisable obj = { obj with conditions := cs } := by
  unfold summarizeDisable
  by_cases h : !obj.test.enable
  · rw [if_pos h]
    exact ⟨_, rfl⟩
  · rw [if_neg h]
    exact ⟨obj.conditions, rfl⟩

/-- `summarizePrep` only rewrites the condition list. -/
theorem summarizePrep_shape (obj : HelmRelease) :
    ∃ cs, summarizePrep obj = { obj with conditions := cs } := by
  unfold summarizePrep
  obtain ⟨cs0, h0⟩ := summarizeDisable_shape obj
  obtain ⟨cs, hc⟩ := cdr_shape (summarizeDisable obj)
  rw [hc, h0]
  exact ⟨cs, rfl⟩

/-- `summarize` only rewrites the condition list. -/
theorem summarize_shape (obj : HelmRelease) :
    ∃ cs, summarize obj = { obj with conditions := cs } := by
  obtain ⟨cs0, h0⟩ := summarizePrep_shape obj
  unfold summarize
  cases hs : sortStable (summLess (sumConds obj.test)) (summarizePrep obj).conditions with
  | nil => exact ⟨cs0, h0⟩
  | cons c0 rest =>
    rw [h0]
    exact ⟨_, rfl⟩

/-- The `Test` spec is untouched by `summarize`. -/
theorem summarize_test (obj : HelmRelease) : (summarize obj).test = obj.test := by
  obtain ⟨cs, h⟩ := summarize_shape obj
  rw [h]

/-- The generation is untouched by `summarize`. -/
theorem summarize_generation (obj : HelmRelease) :
    (summarize obj).generation = obj.generation := by
  obtain ⟨cs, h⟩ := summarize_shape obj
  rw [h]

/-- The history is untouched by `summarize`. -/
theorem summarize_history (obj : HelmRelease) :
    (summarize obj).history = obj.history := by
  obtain ⟨cs, h⟩ := summarize_shape obj
  rw [h]

/-- `recordOnObject` only rewrites the history. -/
theorem recordOnObject_shape (r : ObservedSet) (obj : HelmRelease) :
    ∃ h, recordOnObject r obj = { obj with history := h } := by
  unfold recordOnObject
  repeat' first
  | exact ⟨_, rfl⟩
  | split

/-! ### The remediation state machine, as the specification words it -/

/-- The deletion decision of the remediation lifecycle, phrased from the
specification: no Remediated condition, or no Released condition of status
True, means no deletion; with Released=True present and testing disabled
or failures ignored, delete exactly when Released's observed generation is
at least Remediated's; otherwise deletion requires a TestSuccess condition
of status True whose observed generation is at least Remediated's. -/
def specRemediationCleared (obj : HelmRelease) : Bool :=
  match getCond RemediatedCondition obj.conditions with
  | none => false
  | some remediated =>
    match getCond ReleasedCondition obj.conditions with
    | none => false
    | some released =>
      if released.status = ConditionTrue then
        if !obj.test.enable || obj.test.ignoreFailures then
          decide (released.observedGeneration ≥ remediated.observedGeneration)
        else
          match getCond TestSuccessCondition obj.conditions with
          | none => false
          | some testSuccess =>
            decide (testSuccess.status = ConditionTrue) &&
              decide (testSuccess.observedGeneration ≥ remediated.observedGeneration)
      else false

/-- The code's remediation step deletes the Remediated condition exactly
when the specification's decision says so, and is a no-op otherwise. -/
theorem cdr_eq_spec (obj : HelmRelease) :
    conditionallyDeleteRemediated obj =
      if specRemediationCleared obj then
        { obj with conditions := delCond RemediatedCondition obj.conditions }
      else obj := by
  unfold conditionallyDeleteRemediated specRemediationCleared
  cases hrem : getCond RemediatedCondition obj.conditions with
  | none => simp
  | some remediated =>
    cases hrel : getCond ReleasedCondition obj.conditions with
    | none => simp
    | some released =>
      by_cases hst : released.status = ConditionTrue
      · by_cases hen : (!obj.test.enable || obj.test.ignoreFailures) = true
        · by_cases hge : released.observedGeneration ≥ remediated.observedGeneration
          · simp [hst, hen, hge]
          · simp [hst, hen, hge]
        · have hen' : (!obj.test.enable || obj.test.ignoreFailures) = false := by
            simpa using hen
          cases hts : getCond TestSuccessCondition obj.conditions with
          | none => simp [hst, hen', hts]
          | some testSuccess =>
            by_cases htss : testSuccess.status = ConditionTrue
            · by_cases htge :
                testSuccess.observedGeneration ≥ remediated.observedGeneration
              · simp [hst, hen', hts, htss, htge]
              · simp [hst, hen', hts, htss, htge]
            · simp [hst, hen', hts, htss]
      · simp [hst]

/-- The deletion decision only reads the three conditions and the test
flags. -/
theorem specRemediationCleared_congr {o1 o2 : HelmRelease}
    (h1 : getCond RemediatedCondition o1.conditions =
      getCond RemediatedCondition o2.conditions)
    (h2 : getCond ReleasedCondition o1.conditions =
      getCond ReleasedCondition o2.conditions)
    (h3 : getCond TestSuccessCondition o1.conditions =
      getCond TestSuccessCondition o2.conditions)
    (h4 : o1.test = o2.test) :
    specRemediationCleared o1 = specRemediationCleared o2 := by
  unfold specRemediationCleared
  rw [h1, h2, h3, h4]

/-! ### Reduction equations and transport through the summarization steps -/

/-- `summarize` is the prep step alone when nothing is left to sort. -/
theorem summarize_eq_nil {obj : HelmRelease}
    (hs : sortStable (summLess (sumConds obj.test))
      (summarizePrep obj).conditions = []) :
    summarize obj = summarizePrep obj := by
  unfold summarize
  rw [hs]

/-- `summarize` finishes with `summarizeSet` when a representative heads
the sorted sequence. -/
theorem summarize_eq_cons {obj : HelmRelease} {c0 : Condition}
    {rest : List Condition}
    (hs : sortStable (summLess (sumConds obj.test))
      (summarizePrep obj).conditions = c0 :: rest) :
    summarize obj = summarizeSet obj.generation c0 rest (summarizePrep obj) := by
  unfold summarize
  rw [hs]

/-- Conditions surviving the disable step were on the object. -/
theorem mem_summarizeDisable {obj : HelmRelease} {c : Condition}
    (hc : c ∈ (summarizeDisable obj).conditions) : c ∈ obj.conditions := by
  unfold summarizeDisable at hc
  by_cases h : !obj.test.enable
  · rw [if_pos h] at hc
    exact (mem_delCond.mp hc).1
  · rwa [if_neg h] at hc

/-- Conditions surviving the prep step were on the object. -/
theorem mem_summarizePrep {obj : HelmRelease} {c : Condition}
    (hc : c ∈ (summarizePrep obj).conditions) : c ∈ obj.conditions := by
  unfold summarizePrep at hc
  rw [cdr_eq_spec] at hc
  by_cases h : specRemediationCleared (summarizeDisable obj)
  · rw [if_pos h] at hc
    exact mem_summarizeDisable (mem_delCond.mp hc).1
  · rw [if_neg h] at hc
    exact mem_summarizeDisable hc

/-- Every condition on the summarized object is the fresh Ready condition
or one that survived the deletion steps. -/
theorem mem_summarize {obj : HelmRelease} {c : Condition}
    (hc : c ∈ (summarize obj).conditions) :
    c.type = ReadyCondition ∨ c ∈ (summarizePrep obj).conditions := by
  cases hs : sortStable (summLess (sumConds obj.test))
      (summarizePrep obj).conditions with
  | nil =>
    rw [summarize_eq_nil hs] at hc
    exact Or.inr hc
  | cons c0 rest =>
    rw [summarize_eq_cons hs] at hc
    unfold summarizeSet at hc
    rcases mem_setCond_elim hc with rfl | hX
    · exact Or.inl rfl
    · have hmem : c ∈ c0 :: rest := by
        by_cases hst : summarizeStatus c0 = ConditionTrue
        · rw [if_pos hst] at hX
          exact (mem_delCond.mp hX).1
        · rwa [if_neg hst] at hX
      right
      have := @mem_sortStable Condition (summLess (sumConds obj.test))
        ((summarizePrep obj).conditions) c
      rw [hs] at this
      exact this.mp hmem

/-- `delCond` preserves type-distinctness. -/
theorem nodup_delCond {t : String} {l : List Condition}
    (h : (l.map Condition.type).Nodup) :
    ((delCond t l).map Condition.type).Nodup :=
  List.Nodup.sublist (List.Sublist.map Condition.type (delCond_sublist t l)) h

/-- The disable step preserves type-distinctness. -/
theorem nodup_summarizeDisable {obj : HelmRelease}
    (h : (obj.conditions.map Condition.type).Nodup) :
    ((summarizeDisable obj).conditions.map Condition.type).Nodup := by
  unfold summarizeDisable
  by_cases he : !obj.test.enable
  · rw [if_pos he]
    exact nodup_delCond h
  · rwa [if_neg he]

/-- The prep step preserves type-distinctness. -/
theorem nodup_summarizePrep {obj : HelmRelease}
    (h : (obj.conditions.map Condition.type).Nodup) :
    ((summarizePrep obj).conditions.map Condition.type).Nodup := by
  unfold summarizePrep
  rw [cdr_eq_spec]
  by_cases hc : specRemediationCleared (summarizeDisable obj)
  · rw [if_pos hc]
    exact nodup_delCond (nodup_summarizeDisable h)
  · rw [if_neg hc]
    exact nodup_summarizeDisable h

/-- The sort preserves type-distinctness. -/
theorem nodup_sortStable {less : Condition → Condition → Bool}
    {l : List Condition} (h : (l.map Condition.type).Nodup) :
    ((sortStable less l).map Condition.type).Nodup :=
  (((sortStable_perm less l).map Condition.type).nodup_iff).mpr h

/-- The summarized object preserves type-distinctness of the prepped
conditions. -/
theorem nodup_summarize {obj : HelmRelease}
    (h : ((summarizePrep obj).conditions.map Condition.type).Nodup) :
    ((summarize obj).conditions.map Condition.type).Nodup := by
  cases hs : sortStable (summLess (sumConds obj.test))
      (summarizePrep obj).conditions with
  | nil =>
    rw [summarize_eq_nil hs]
    exact h
  | cons c0 rest =>
    rw [summarize_eq_cons hs]
    unfold summarizeSet
    apply setCond_nodup
    have hsort : ((c0 :: rest).map Condition.type).Nodup := by
      rw [← hs]
      exact nodup_sortStable h
    by_cases hst : summarizeStatus c0 = ConditionTrue
    · rw [if_pos hst]
      exact nodup_delCond hsort
    · rw [if_neg hst]
      exact hsort

/-- For a type other than Ready and Stalled, looking a condition up on the
summarized object agrees with looking it up after the deletion steps. -/
theorem getCond_summarize_eq (obj : HelmRelease) (t : String)
    (hnd : ((summarizePrep obj).conditions.map Condition.type).Nodup)
    (ht1 : t ≠ ReadyCondition) (ht2 : t ≠ StalledCondition) :
    getCond t (summarize obj).conditions =
      getCond t (summarizePrep obj).conditions := by
  have hmem : ∀ c : Condition, c.type = t →
      (c ∈ (summarize obj).conditions ↔ c ∈ (summarizePrep obj).conditions) := by
    intro c hct
    cases hs : sortStable (summLess (sumConds obj.test))
        (summarizePrep obj).conditions with
    | nil => rw [summarize_eq_nil hs]
    | cons c0 rest =>
      rw [summarize_eq_cons hs]
      unfold summarizeSet
      constructor
      · intro hc
        rcases mem_setCond_elim hc with rfl | hX
        · exact absurd hct.symm ht1
        · have hmem' : c ∈ c0 :: rest := by
            by_cases hst : summarizeStatus c0 = ConditionTrue
            · rw [if_pos hst] at hX
              exact (mem_delCond.mp hX).1
            · rwa [if_neg hst] at hX
          have := @mem_sortStable Condition (summLess (sumConds obj.test))
            ((summarizePrep obj).conditions) c
          rw [hs] at this
          exact this.mp hmem'
      · intro hc
        have hsorted : c ∈ c0 :: rest := by
          have := @mem_sortStable Condition (summLess (sumConds obj.test))
            ((summarizePrep obj).conditions) c
          rw [hs] at this
          exact this.mpr hc
        have hX : c ∈ (if summarizeStatus c0 = ConditionTrue then
            delCond StalledCondition (c0 :: rest) else (c0 :: rest)) := by
          by_cases hst : summarizeStatus c0 = ConditionTrue
          · rw [if_pos hst]
            exact mem_delCond.mpr ⟨hsorted, fun h => ht2 (hct ▸ h ▸ rfl)⟩
          · rwa [if_neg hst]
        exact mem_setCond_of_ne hX (fun h => ht1 (hct ▸ h ▸ rfl))
  cases hg : getCond t (summarizePrep obj).conditions with
  | some c =>
    obtain ⟨hcmem, hct⟩ := getCond_mem hg
    exact getCond_unique (nodup_summarize hnd) ((hmem c hct).mpr hcmem) hct
  | none =>
    rw [getCond_eq_none_iff] at hg ⊢
    intro c hc hct
    exact hg c ((hmem c hct).mp hc) hct

/-- A Boolean-false `isSome` means the option is `none`. -/
theorem isSome_false_eq_none {α : Type _} {o : Option α}
    (h : o.isSome = false) : o = none := by
  cases o with
  | none => rfl
  | some v => simp [Option.isSome] at h

/-- Conditions surviving the prep step survived the disable step. -/
theorem mem_summarizePrep_disable {obj : HelmRelease} {c : Condition}
    (hc : c ∈ (summarizePrep obj).conditions) :
    c ∈ (summarizeDisable obj).conditions := by
  unfold summarizePrep at hc
  rw [cdr_eq_spec] at hc
  by_cases h : specRemediationCleared (summarizeDisable obj)
  · rw [if_pos h] at hc
    exact (mem_delCond.mp hc).1
  · rwa [if_neg h] at hc

/-- With testing disabled, the disable step leaves no TestSuccess
condition. -/
theorem summarizeDisable_no_testSuccess {obj : HelmRelease}
    (h : obj.test.enable = false) :
    ∀ c ∈ (summarizeDisable obj).conditions, c.type ≠ TestSuccessCondition := by
  intro c hc
  have hd : summarizeDisable obj =
      { obj with conditions := delCond TestSuccessCondition obj.conditions } := by
    unfold summarizeDisable
    rw [h]
    rfl
  rw [hd] at hc
  exact (mem_delCond.mp hc).2

/-- With testing disabled, the summarized object carries no TestSuccess
condition. -/
theorem summarize_no_testSuccess {obj : HelmRelease}
    (h : obj.test.enable = false) :
    ∀ c ∈ (summarize obj).conditions, c.type ≠ TestSuccessCondition := by
  intro c hc
  rcases mem_summarize hc with hr | hp
  · rw [hr]
    decide
  · exact summarizeDisable_no_testSuccess h c (mem_summarizePrep_disable hp)

/-- Re-running the remediation step on a summarized object is a no-op:
the decision inputs did not change. -/
theorem cdr_summarize_noop {obj : HelmRelease}
    (hnd : ((summarizePrep obj).conditions.map Condition.type).Nodup) :
    conditionallyDeleteRemediated (summarize obj) = summarize obj := by
  have e1 := getCond_summarize_eq obj RemediatedCondition hnd
    (by decide) (by decide)
  have e2 := getCond_summarize_eq obj ReleasedCondition hnd
    (by decide) (by decide)
  have e3 := getCond_summarize_eq obj TestSuccessCondition hnd
    (by decide) (by decide)
  rw [cdr_eq_spec]
  suffices h : specRemediationCleared (summarize obj) = false by
    rw [h]
    rfl
  have hprep : summarizePrep obj =
      if specRemediationCleared (summarizeDisable obj) then
        { summarizeDisable obj with
          conditions := delCond RemediatedCondition (summarizeDisable obj).conditions }
      else summarizeDisable obj := cdr_eq_spec (summarizeDisable obj)
  by_cases hcl : specRemediationCleared (summarizeDisable obj)
  · have hrnone : getCond RemediatedCondition (summarizePrep obj).conditions = none := by
      rw [hprep, if_pos hcl, getCond_eq_none_iff]
      intro c hc
      exact (mem_delCond.mp hc).2
    unfold specRemediationCleared
    rw [e1, hrnone]
  · have hpd : summarizePrep obj = summarizeDisable obj := by
      rw [hprep, if_neg hcl]
    have hcongr : specRemediationCleared (summarize obj) =
        specRemediationCleared (summarizeDisable obj) := by
      apply specRemediationCleared_congr
      · rw [e1, hpd]
      · rw [e2, hpd]
      · rw [e3, hpd]
      · rw [summarize_test]
        obtain ⟨cs, hd⟩ := summarizeDisable_shape obj
        rw [hd]
    rw [hcongr]
    simpa using hcl

/-- Re-running the disable step on a summarized object is a no-op. -/
theorem summarizeDisable_summarize (obj : HelmRelease) :
    summarizeDisable (summarize obj) = summarize obj := by
  unfold summarizeDisable
  by_cases he : obj.test.enable = false
  · have hno := summarize_no_testSuccess he
    rw [delCond_eq_self hno]
    split <;> rfl
  · have he' : (summarize obj).test.enable = true := by
      rw [summarize_test]
      simpa using he
    rw [he']
    rfl

/-- Re-running both deletion steps on a summarized object is a no-op. -/
theorem summarizePrep_summarize {obj : HelmRelease}
    (hnd : ((summarizePrep obj).conditions.map Condition.type).Nodup) :
    summarizePrep (summarize obj) = summarize obj := by
  unfold summarizePrep
  rw [summarizeDisable_summarize]
  exact cdr_summarize_noop hnd

/-- A run of conditions absent from the priority list never wants to
swap. -/
theorem chain'_notP {sc : List String} {l : List Condition}
    (h : ∀ c ∈ l, inStringSlice sc c.type = none) :
    List.Chain' (fun a b => summLess sc b a = false) l := by
  induction l with
  | nil => exact List.chain'_nil
  | cons x xs ih =>
    rw [List.chain'_cons']
    refine ⟨?_, ih (fun c hc => h c (List.mem_cons_of_mem _ hc))⟩
    intro z hz
    exact summLess_absent
      (h z (List.mem_cons_of_mem _ (List.mem_of_mem_head? hz))) x

/-- Appending a run of conditions absent from the priority list to a
no-swap list keeps it a no-swap list. -/
theorem chain'_append_notP {sc : List String} {A B : List Condition}
    (hA : List.Chain' (fun a b => summLess sc b a = false) A)
    (hB : ∀ c ∈ B, inStringSlice sc c.type = none) :
    List.Chain' (fun a b => summLess sc b a = false) (A ++ B) := by
  rw [List.chain'_append]
  refine ⟨hA, chain'_notP hB, ?_⟩
  intro x hx y hy
  exact summLess_absent (hB y (List.mem_of_mem_head? hy)) x

/-- `setCond` overwrites a head of the same type in place. -/
theorem setCond_cons_eq {c d : Condition} {ds : List Condition}
    (h : d.type = c.type) : setCond c (d :: ds) = c :: ds := by
  simp [setCond, h]

/-- `setCond` keeps a head of a different type. -/
theorem setCond_cons_ne {c d : Condition} {ds : List Condition}
    (h : d.type ≠ c.type) : setCond c (d :: ds) = d :: setCond c ds := by
  simp [setCond, h]

/-- The derived status of the freshly set Ready condition is the derived
status of the representative it was built from. -/
theorem summarizeStatus_readyFor (g : Int) (c0 : Condition) :
    summarizeStatus (readyFor g c0) = summarizeStatus c0 := by
  show (if (readyFor g c0).type = RemediatedCondition then ConditionFalse
      else (readyFor g c0).status) = summarizeStatus c0
  rw [show (readyFor g c0).type = ReadyCondition from rfl,
    if_neg (by decide : ¬(ReadyCondition = RemediatedCondition)),
    show (readyFor g c0).status = summarizeStatus c0 from rfl]

/-- Idempotence core of `summarize`: with type-distinct conditions and a
representative that is not a Stalled condition of status True (such a
representative is deleted by the pass itself, letting another condition
take over on a second pass), summarizing twice equals summarizing once. -/
theorem summarize_idem_main (obj : HelmRelease)
    (hnd : (obj.conditions.map Condition.type).Nodup)
    (hrep : (representative obj).all
      (fun c => !(c.type == StalledCondition && c.status == ConditionTrue)) = true) :
    summarize (summarize obj) = summarize obj := by
  have hndp : ((summarizePrep obj).conditions.map Condition.type).Nodup :=
    nodup_summarizePrep hnd
  have hprep2 : summarizePrep (summarize obj) = summarize obj :=
    summarizePrep_summarize hndp
  cases hs : sortStable (summLess (sumConds obj.test))
      (summarizePrep obj).conditions with
  | nil =>
    have hempty : (summarizePrep obj).conditions = [] := by
      have hp := sortStable_perm (summLess (sumConds obj.test))
        (summarizePrep obj).conditions
      rw [hs] at hp
      exact List.perm_nil.mp hp.symm
    have hF1 : summarize obj = summarizePrep obj := summarize_eq_nil hs
    have h2 : sortStable (summLess (sumConds (summarize obj).test))
        (summarizePrep (summarize obj)).conditions = [] := by
      rw [hprep2, hF1, hempty]
      rfl
    rw [summarize_eq_nil h2, hprep2]
  | cons c0 rest =>
    have hF1 : summarize obj = summarizeSet obj.generation c0 rest (summarizePrep obj) :=
      summarize_eq_cons hs
    have hrep' : ¬(c0.type = StalledCondition ∧ c0.status = ConditionTrue) := by
      have hr : representative obj = some c0 := by
        unfold representative
        rw [hs]
        rfl
      rw [hr] at hrep
      have hb : (!(c0.type == StalledCondition && c0.status == ConditionTrue)) = true :=
        hrep
      intro hand
      rw [hand.1, hand.2] at hb
      simp at hb
    have hc0ns : summarizeStatus c0 = ConditionTrue → c0.type ≠ StalledCondition := by
      intro hT hS
      have hstat : summarizeStatus c0 = c0.status := by
        unfold summarizeStatus
        rw [if_neg (show ¬c0.type = RemediatedCondition by rw [hS]; decide)]
      exact hrep' ⟨hS, by rw [← hstat]; exact hT⟩
    have hY : (if summarizeStatus c0 = ConditionTrue then
          delCond StalledCondition (c0 :: rest) else (c0 :: rest)) =
        c0 :: (if summarizeStatus c0 = ConditionTrue then
          delCond StalledCondition rest else rest) := by
      by_cases hT : summarizeStatus c0 = ConditionTrue
      · rw [if_pos hT, if_pos hT, delCond_cons_ne rest (hc0ns hT)]
      · rw [if_neg hT, if_neg hT]
    have hF1c : (summarize obj).conditions =
        setCond (readyFor obj.generation c0)
          (c0 :: (if summarizeStatus c0 = ConditionTrue then
            delCond StalledCondition rest else rest)) := by
      rw [hF1]
      show setCond (readyFor obj.generation c0)
          (if summarizeStatus c0 = ConditionTrue then
            delCond StalledCondition (c0 :: rest) else (c0 :: rest)) = _
      rw [hY]
    have hP1 : ∀ a b : Condition,
        (inStringSlice (sumConds obj.test) a.type).isSome = false →
        summLess (sumConds obj.test) a b = false := by
      intro a b ha
      exact summLess_absent (isSome_false_eq_none ha) b
    have hP2 : ∀ a b : Condition,
        (inStringSlice (sumConds obj.test) a.type).isSome = true →
        (inStringSlice (sumConds obj.test) b.type).isSome = false →
        summLess (sumConds obj.test) a b = true := by
      intro a b ha hb
      exact summLess_present_absent ha (isSome_false_eq_none hb)
    obtain ⟨A, B, hAB, hA, hB⟩ := sortStable_block
      (P := fun c : Condition => (inStringSlice (sumConds obj.test) c.type).isSome)
      hP1 hP2 (summarizePrep obj).conditions
    have hABc : (c0 :: rest : List Condition) = A ++ B := by
      rw [← hs, hAB]
    have hAmem : ∀ c ∈ A, c.type ∈ sumConds obj.test := by
      intro c hc
      obtain ⟨i, hi⟩ := Option.isSome_iff_exists.mp (hA c hc)
      exact mem_of_inStringSlice_some hi
    have hAstalled : ∀ c ∈ A, c.type ≠ StalledCondition := by
      intro c hc h'
      apply stalled_not_mem_sumConds obj.test
      rw [← h']
      exact hAmem c hc
    have hAready : ∀ c ∈ A, c.type ≠ (readyFor obj.generation c0).type := by
      intro c hc h'
      apply ready_not_mem_sumConds obj.test
      rw [show (readyFor obj.generation c0).type = ReadyCondition from rfl] at h'
      rw [← h']
      exact hAmem c hc
    have hchain : List.Chain'
        (fun a b => summLess (sumConds obj.test) b a = false) (A ++ B) := by
      rw [← hAB]
      exact sortStable_chain (summLess_asymm (sumConds obj.test)) _
    have hchainA := (List.chain'_append.mp hchain).1
    have hBnone : ∀ c ∈ B, inStringSlice (sumConds obj.test) c.type = none :=
      fun c hc => isSome_false_eq_none (hB c hc)
    have hF1AB : (summarize obj).conditions =
        A ++ setCond (readyFor obj.generation c0)
          (if summarizeStatus c0 = ConditionTrue then
            delCond StalledCondition B else B) := by
      rw [hF1]
      show setCond (readyFor obj.generation c0)
          (if summarizeStatus c0 = ConditionTrue then
            delCond StalledCondition (c0 :: rest) else (c0 :: rest)) = _
      rw [hABc]
      by_cases hT : summarizeStatus c0 = ConditionTrue
      · rw [if_pos hT, if_pos hT, delCond_append, delCond_eq_self hAstalled,
          setCond_append_left hAready]
      · rw [if_neg hT, if_neg hT, setCond_append_left hAready]
    have hB2none : ∀ c ∈ setCond (readyFor obj.generation c0)
        (if summarizeStatus c0 = ConditionTrue then delCond StalledCondition B else B),
        inStringSlice (sumConds obj.test) c.type = none := by
      intro c hc
      rcases mem_setCond_elim hc with hceq | hcB
      · rw [hceq, inStringSlice_eq_none_iff]
        show ReadyCondition ∉ sumConds obj.test
        exact ready_not_mem_sumConds obj.test
      · have hcBmem : c ∈ B := by
          by_cases hT : summarizeStatus c0 = ConditionTrue
          · rw [if_pos hT] at hcB
            exact (mem_delCond.mp hcB).1
          · rwa [if_neg hT] at hcB
        exact hBnone c hcBmem
    have hchainF1 : List.Chain'
        (fun a b => summLess (sumConds obj.test) b a = false)
        (summarize obj).conditions := by
      rw [hF1AB]
      exact chain'_append_notP hchainA hB2none
    have hsort2 : sortStable (summLess (sumConds obj.test))
        (summarize obj).conditions = (summarize obj).conditions :=
      sortStable_eq_of_chain hchainF1
    have hsplit : (summarize obj).conditions =
        (if c0.type = ReadyCondition then readyFor obj.generation c0 else c0) ::
        (if c0.type = ReadyCondition then
          (if summarizeStatus c0 = ConditionTrue then
            delCond StalledCondition rest else rest)
        else setCond (readyFor obj.generation c0)
          (if summarizeStatus c0 = ConditionTrue then
            delCond StalledCondition rest else rest)) := by
      rw [hF1c]
      by_cases hR : c0.type = ReadyCondition
      · rw [if_pos hR, if_pos hR, setCond_cons_eq hR]
      · rw [if_neg hR, if_neg hR, setCond_cons_ne hR]
    have hstat2 : summarizeStatus
        (if c0.type = ReadyCondition then readyFor obj.generation c0 else c0) =
        summarizeStatus c0 := by
      by_cases hR : c0.type = ReadyCondition
      · rw [if_pos hR, summarizeStatus_readyFor]
      · rw [if_neg hR]
    have hready2 : readyFor obj.generation
        (if c0.type = ReadyCondition then readyFor obj.generation c0 else c0) =
        readyFor obj.generation c0 := by
      by_cases hR : c0.type = ReadyCondition
      · rw [if_pos hR]
        show ({ type := ReadyCondition,
                status := summarizeStatus (readyFor obj.generation c0),
                reason := (readyFor obj.generation c0).reason,
                message := (readyFor obj.generation c0).message,
                observedGeneration := obj.generation } : Condition) =
          readyFor obj.generation c0
        rw [summarizeStatus_readyFor]
        rfl
      · rw [if_neg hR]
    have hnostalledF1 : summarizeStatus c0 = ConditionTrue →
        ∀ c ∈ (summarize obj).conditions, c.type ≠ StalledCondition := by
      intro hT c hc
      rw [hF1c] at hc
      rcases mem_setCond_elim hc with hceq | hcY
      · rw [hceq]
        show ¬((readyFor obj.generation c0).type = StalledCondition)
        rw [show (readyFor obj.generation c0).type = ReadyCondition from rfl]
        decide
      · rcases List.mem_cons.mp hcY with hceq0 | hcX
        · rw [hceq0]
          exact hc0ns hT
        · rw [if_pos hT] at hcX
          exact (mem_delCond.mp hcX).2
    have hgetready : getCond (readyFor obj.generation c0).type
        (summarize obj).conditions = some (readyFor obj.generation c0) := by
      rw [hF1c]
      exact getCond_setCond_self _ _
    have hs2 : sortStable (summLess (sumConds (summarize obj).test))
        (summarizePrep (summarize obj)).conditions =
        (if c0.type = ReadyCondition then readyFor obj.generation c0 else c0) ::
        (if c0.type = ReadyCondition then
          (if summarizeStatus c0 = ConditionTrue then
            delCond StalledCondition rest else rest)
        else setCond (readyFor obj.generation c0)
          (if summarizeStatus c0 = ConditionTrue then
            delCond StalledCondition rest else rest)) := by
      rw [hprep2, summarize_test, hsort2, hsplit]
    rw [summarize_eq_cons hs2, hprep2, summarize_generation]
    unfold summarizeSet
    rw [← hsplit, hstat2, hready2]
    by_cases hT : summarizeStatus c0 = ConditionTrue
    · rw [if_pos hT, delCond_eq_self (hnostalledF1 hT),
        setCond_eq_self hgetready]
    · rw [if_neg hT, setCond_eq_self hgetready]

/-! ### Facts about the history merger -/

/-- Inserting a version permutes it to the front of the multiset. -/
theorem insertDesc_perm (v : Int) (l : List Int) :
    List.Perm (insertDesc v l) (v :: l) := by
  induction l with
  | nil => rfl
  | cons x xs ih =>
    by_cases h : v ≥ x
    · simp only [insertDesc, h, if_true]
      exact List.Perm.refl _
    · simp only [insertDesc, h, if_false]
      exact (ih.cons x).trans (List.Perm.swap v x xs)

/-- The sorted versions are a permutation of the keys. -/
theorem sortedVersions_perm (r : ObservedSet) :
    List.Perm (sortedVersions r) (List.map Prod.fst r) := by
  unfold sortedVersions
  suffices h : ∀ l : List Int, List.Perm (l.foldr insertDesc []) l from h _
  intro l
  induction l with
  | nil => rfl
  | cons x xs ih => exact (insertDesc_perm x _).trans (ih.cons x)

/-- Inserting a version keeps the list descending. -/
theorem insertDesc_chain {v : Int} {l : List Int}
    (h : List.Chain' (· ≥ ·) l) :
    List.Chain' (· ≥ ·) (insertDesc v l) := by
  induction l with
  | nil => simp [insertDesc]
  | cons x xs ih =>
    by_cases hvx : v ≥ x
    · simp only [insertDesc, hvx, if_true]
      exact List.chain'_cons.mpr ⟨hvx, h⟩
    · simp only [insertDesc, hvx, if_false]
      rw [List.chain'_cons']
      refine ⟨?_, ih h.tail⟩
      intro z hz
      cases xs with
      | nil =>
        simp only [insertDesc, List.head?] at hz
        cases hz
        omega
      | cons y ys =>
        by_cases hvy : v ≥ y
        · simp only [insertDesc, hvy, if_true, List.head?] at hz
          cases hz
          omega
        · simp only [insertDesc, hvy, if_false, List.head?] at hz
          cases hz
          exact (List.chain'_cons.mp h).1

/-- The sorted versions are descending. -/
theorem sortedVersions_chain (r : ObservedSet) :
    List.Chain' (· ≥ ·) (sortedVersions r) := by
  unfold sortedVersions
  suffices h : ∀ l : List Int, List.Chain' (· ≥ ·) (l.foldr insertDesc []) from h _
  intro l
  induction l with
  | nil => exact List.chain'_nil
  | cons x xs ih => exact insertDesc_chain ih

/-- The head of a descending list bounds every later element. -/
theorem chain_ge_head {x : Int} {l : List Int}
    (h : List.Chain' (· ≥ ·) (x :: l)) : ∀ y ∈ l, x ≥ y := by
  induction l generalizing x with
  | nil => intro y hy; cases hy
  | cons z zs ih =>
    intro y hy
    have hxz : x ≥ z := (List.chain'_cons.mp h).1
    rcases List.mem_cons.mp hy with rfl | hy'
    · exact hxz
    · exact le_trans (ih (List.chain'_cons.mp h).2 y hy') hxz

/-- For a well-formed observed set, the entry looked up at a present key
carries that key as its version. -/
theorem osLookup_version {r : ObservedSet}
    (hcoh : ∀ p ∈ r, (p.2).version = p.1) {v : Int}
    (hv : v ∈ List.map Prod.fst r) : (osLookup r v).version = v := by
  unfold osLookup
  cases hf : List.find? (fun p => p.1 == v) r with
  | none =>
    exfalso
    rw [List.find?_eq_none] at hf
    obtain ⟨p, hp, hpv⟩ := List.mem_map.mp hv
    exact hf p hp (by simp [hpv])
  | some p =>
    have hmem := List.mem_of_find?_eq_some hf
    have hkey : p.1 = v := by simpa using List.find?_some hf
    rw [hcoh p hmem, hkey]

/-- A snapshot of a different version never matches the identity key. -/
theorem targets_false_of_version {s : Snapshot} {n ns : String} {v : Int}
    (h : s.version ≠ v) : s.targets n ns v = false := by
  unfold Snapshot.targets
  simp [h]

/-- When no snapshot matches, the replacement scan fails. -/
theorem rfm_none_of {obs : Observation} {l : List Snapshot}
    (h : ∀ s ∈ l, s.targets obs.name obs.nspace obs.version = false) :
    replaceFirstMatch obs l = none := by
  induction l with
  | nil => rfl
  | cons snap tail ih =>
    have hs := h snap (List.mem_cons_self _ _)
    simp only [replaceFirstMatch, hs, Bool.false_eq_true, if_false]
    rw [ih (fun s hs' => h s (List.mem_cons_of_mem _ hs'))]

/-- When the replacement scan fails, no snapshot matches. -/
theorem rfm_none_forall {obs : Observation} {l : List Snapshot}
    (h : replaceFirstMatch obs l = none) :
    ∀ s ∈ l, s.targets obs.name obs.nspace obs.version = false := by
  induction l with
  | nil => intro s hs; cases hs
  | cons snap tail ih =>
    intro s hs
    by_cases ht : snap.targets obs.name obs.nspace obs.version
    · simp [replaceFirstMatch, ht] at h
    · have ht' : snap.targets obs.name obs.nspace obs.version = false := by
        simpa using ht
      simp only [replaceFirstMatch, ht', if_false] at h
      rcases List.mem_cons.mp hs with rfl | hs'
      · exact ht'
      · cases hr : replaceFirstMatch obs tail with
        | some t' => rw [hr] at h; cases h
        | none => exact ih hr s hs'

/-- A successful replacement scan splits the history at the first
matching snapshot and replaces it in place, carrying its test hooks. -/
theorem rfm_some_ex {obs : Observation} {l l' : List Snapshot}
    (h : replaceFirstMatch obs l = some l') :
    ∃ l1 old l2, l = l1 ++ old :: l2 ∧
      (∀ s ∈ l1, s.targets obs.name obs.nspace obs.version = false) ∧
      old.targets obs.name obs.nspace obs.version = true ∧
      l' = l1 ++ ({ ObservedToSnapshot obs with testHooks := old.testHooks } :: l2) := by
  induction l generalizing l' with
  | nil => cases h
  | cons snap tail ih =>
    by_cases ht : snap.targets obs.name obs.nspace obs.version
    · simp only [replaceFirstMatch, ht, if_true, Option.some_inj] at h
      exact ⟨[], snap, tail, rfl, by simp, ht, by rw [← h]; rfl⟩
    · have ht' : snap.targets obs.name obs.nspace obs.version = false := by
        simpa using ht
      simp only [replaceFirstMatch, ht', if_false] at h
      cases hr : replaceFirstMatch obs tail with
      | none => rw [hr] at h; cases h
      | some t' =>
        rw [hr] at h
        obtain ⟨l1, old, l2, heq, hl1, hold, hteq⟩ := ih hr
        refine ⟨snap :: l1, old, l2, by rw [List.cons_append, heq], ?_, hold, ?_⟩
        · intro s hs
          rcases List.mem_cons.mp hs with rfl | hs'
          · exact ht'
          · exact hl1 s hs'
        · cases h
          rw [List.cons_append, hteq]

/-- The outer merge loop either leaves the history untouched (no version
matched anything) or performs exactly the first successful replacement,
in descending version order, and stops. -/
theorem goVersions_spec (r : ObservedSet) (hist : List Snapshot) :
    ∀ vers : List Int,
      (goVersions r hist vers = hist ∧
        ∀ ver ∈ vers, ∀ s ∈ hist,
          s.targets (osLookup r ver).name (osLookup r ver).nspace
            (osLookup r ver).version = false) ∨
      (∃ vs1 ver vs2 l1 old l2,
        vers = vs1 ++ ver :: vs2 ∧
        (∀ v' ∈ vs1, ∀ s ∈ hist,
          s.targets (osLookup r v').name (osLookup r v').nspace
            (osLookup r v').version = false) ∧
        hist = l1 ++ old :: l2 ∧
        (∀ s ∈ l1, s.targets (osLookup r ver).name (osLookup r ver).nspace
          (osLookup r ver).version = false) ∧
        old.targets (osLookup r ver).name (osLookup r ver).nspace
          (osLookup r ver).version = true ∧
        goVersions r hist vers =
          l1 ++ ({ ObservedToSnapshot (osLookup r ver) with
            testHooks := old.testHooks } :: l2)) := by
  intro vers
  induction vers with
  | nil =>
    left
    exact ⟨rfl, by simp⟩
  | cons ver rest ih =>
    cases hr : replaceFirstMatch (osLookup r ver) hist with
    | some hist' =>
      right
      obtain ⟨l1, old, l2, heq, hl1, hold, h'⟩ := rfm_some_ex hr
      refine ⟨[], ver, rest, l1, old, l2, rfl, by simp, heq, hl1, hold, ?_⟩
      rw [show goVersions r hist (ver :: rest) = hist' from by
        simp [goVersions, hr], h']
    | none =>
      have hnone := rfm_none_forall hr
      have hstep : goVersions r hist (ver :: rest) = goVersions r hist rest := by
        simp [goVersions, hr]
      rcases ih with ⟨hgl, hall⟩ | ⟨vs1, ver', vs2, l1, old, l2, hv, hvs1, hh, hl1, hold, hres⟩
      · left
        refine ⟨by rw [hstep, hgl], ?_⟩
        intro v hv s hs
        rcases List.mem_cons.mp hv with rfl | hv'
        · exact hnone s hs
        · exact hall v hv' s hs
      · right
        refine ⟨ver :: vs1, ver', vs2, l1, old, l2,
          by rw [List.cons_append, hv], ?_, hh, hl1,
          hold, by rw [hstep, hres]⟩
        intro v' hv' s hs
        rcases List.mem_cons.mp hv' with rfl | hv''
        · exact hnone s hs
        · exact hvs1 v' hv'' s hs

/-- The default branch of `recordOnObject`, reduced: prepend the snapshot
of the highest version and run the replacement scan over the remaining
versions. -/
theorem recordOnObject_multi_eq {r : ObservedSet} (obj : HelmRelease)
    {a b : Int × Observation} {t : List (Int × Observation)} (hr : r = a :: b :: t)
    {v0 : Int} {rest : List Int} (hs : sortedVersions r = v0 :: rest) :
    recordOnObject r obj =
      { obj with history :=
          goVersions r (ObservedToSnapshot (osLookup r v0) :: obj.history) rest } := by
  subst hr
  unfold recordOnObject
  rw [hs]

/-- The Ready condition set by `summarize` for the representative heading
the sorted sequence. -/
theorem getCond_ready_summarize {obj : HelmRelease} {c0 : Condition}
    {rest : List Condition}
    (hs : sortStable (summLess (sumConds obj.test))
      (summarizePrep obj).conditions = c0 :: rest) :
    getCond ReadyCondition (summarize obj).conditions =
      some (readyFor obj.generation c0) := by
  rw [summarize_eq_cons hs]
  exact getCond_setCond_self (readyFor obj.generation c0) _

/-- When the resulting status is True, no Stalled condition survives
`summarize`. -/
theorem summarize_no_stalled {obj : HelmRelease} {c0 : Condition}
    {rest : List Condition}
    (hs : sortStable (summLess (sumConds obj.test))
      (summarizePrep obj).conditions = c0 :: rest)
    (hT : summarizeStatus c0 = ConditionTrue) :
    getCond StalledCondition (summarize obj).conditions = none := by
  rw [getCond_eq_none_iff]
  intro c hc
  rw [summarize_eq_cons hs] at hc
  have hc' : c ∈ setCond (readyFor obj.generation c0)
      (if summarizeStatus c0 = ConditionTrue then
        delCond StalledCondition (c0 :: rest) else (c0 :: rest)) := hc
  rw [if_pos hT] at hc'
  rcases mem_setCond_elim hc' with hceq | hcX
  · rw [hceq]
    show ¬((readyFor obj.generation c0).type = StalledCondition)
    rw [show (readyFor obj.generation c0).type = ReadyCondition from rfl]
    decide
  · exact (mem_delCond.mp hcX).2

/-- The derived status of a condition whose type is not Remediated is its
own status. -/
theorem summarizeStatus_of_ne {c : Condition}
    (h : c.type ≠ RemediatedCondition) : summarizeStatus c = c.status := by
  unfold summarizeStatus
  rw [if_neg h]

/-! ### Specification of the multi-entry merge -/

/-- What the specification demands of a multi-entry merge: the snapshot of
the highest observed version is prepended unconditionally; then either no
remaining version matches any existing history entry and the old history
survives untouched, or scanning the remaining versions in descending
order, the first version with a matching existing entry has that first
matching entry replaced in place by a freshly derived snapshot carrying
the replaced entry's test hooks, and nothing else changes. -/
def mergeSpec (r : ObservedSet) (obj : HelmRelease) : Prop :=
  ∃ v0 rest, sortedVersions r = v0 :: rest ∧
    (∀ v ∈ List.map Prod.fst r, v ≤ v0) ∧
    (recordOnObject r obj).history.head? =
      some (ObservedToSnapshot (osLookup r v0)) ∧
    (((recordOnObject r obj).history.tail = obj.history ∧
      ∀ ver ∈ rest, ∀ s ∈ obj.history,
        s.targets (osLookup r ver).name (osLookup r ver).nspace
          (osLookup r ver).version = false) ∨
    (∃ vs1 ver vs2 l1 old l2,
      rest = vs1 ++ ver :: vs2 ∧
      (∀ v' ∈ vs1, ∀ s ∈ obj.history,
        s.targets (osLookup r v').name (osLookup r v').nspace
          (osLookup r v').version = false) ∧
      obj.history = l1 ++ old :: l2 ∧
      (∀ s ∈ l1, s.targets (osLookup r ver).name (osLookup r ver).nspace
        (osLookup r ver).version = false) ∧
      old.targets (osLookup r ver).name (osLookup r ver).nspace
        (osLookup r ver).version = true ∧
      (recordOnObject r obj).history.tail =
        l1 ++ ({ ObservedToSnapshot (osLookup r ver) with
          testHooks := old.testHooks } :: l2)))

/-- The multi-entry merge satisfies its specification for every
well-formed observed set of at least two entries. -/
theorem recordOnObject_multi (r : ObservedSet) (obj : HelmRelease)
    (hlen : 2 ≤ r.length)
    (hnd : (List.map Prod.fst r).Nodup)
    (hcoh : ∀ p ∈ r, (p.2).version = p.1) :
    mergeSpec r obj := by
  have hshape : ∃ a b t, r = a :: b :: t := by
    cases r with
    | nil => simp at hlen
    | cons a r' =>
      cases r' with
      | nil => simp at hlen
      | cons b t => exact ⟨a, b, t, rfl⟩
  obtain ⟨a, b, t, hrr⟩ := hshape
  cases hs : sortedVersions r with
      | nil =>
        exfalso
        have hlen2 := (sortedVersions_perm r).length_eq
        rw [hs, List.length_map] at hlen2
        rw [hrr] at hlen2
        simp at hlen2
      | cons v0 rest =>
        have hperm : List.Perm (v0 :: rest) (List.map Prod.fst r) := by
          rw [← hs]
          exact sortedVersions_perm r
        have hv0mem : v0 ∈ List.map Prod.fst r :=
          hperm.mem_iff.mp (List.mem_cons_self _ _)
        have hchainv := sortedVersions_chain r
        rw [hs] at hchainv
        have hmax : ∀ v ∈ List.map Prod.fst r, v ≤ v0 := by
          intro v hv
          rcases List.mem_cons.mp (hperm.mem_iff.mpr hv) with rfl | hv'
          · exact le_refl v
          · exact chain_ge_head hchainv v hv'
        have hndv : (v0 :: rest).Nodup := hperm.nodup_iff.mpr hnd
        have hrestne : ∀ ver ∈ rest, ver ≠ v0 := by
          intro ver hver hEq
          exact (List.nodup_cons.mp hndv).1 (hEq ▸ hver)
        have hrestmem : ∀ ver ∈ rest, ver ∈ List.map Prod.fst r := by
          intro ver hver
          exact hperm.mem_iff.mp (List.mem_cons_of_mem _ hver)
        have hheadver : (ObservedToSnapshot (osLookup r v0)).version = v0 := by
          show (osLookup r v0).version = v0
          exact osLookup_version hcoh hv0mem
        have hheadnomatch : ∀ ver ∈ rest,
            (ObservedToSnapshot (osLookup r v0)).targets (osLookup r ver).name
              (osLookup r ver).nspace (osLookup r ver).version = false := by
          intro ver hver
          apply targets_false_of_version
          rw [hheadver, osLookup_version hcoh (hrestmem ver hver)]
          exact Ne.symm (hrestne ver hver)
        have hrec := recordOnObject_multi_eq obj hrr hs
        refine ⟨v0, rest, hs, hmax, ?_⟩
        rcases goVersions_spec r (ObservedToSnapshot (osLookup r v0) :: obj.history)
            rest with ⟨hgl, hall⟩ | ⟨vs1, ver, vs2, l1, old, l2, hv, hvs1, hh, hl1, hold, hres⟩
        · constructor
          · rw [hrec]
            show (goVersions r (ObservedToSnapshot (osLookup r v0) :: obj.history)
              rest).head? = _
            rw [hgl]
            rfl
          · left
            constructor
            · rw [hrec]
              show (goVersions r (ObservedToSnapshot (osLookup r v0) :: obj.history)
                rest).tail = _
              rw [hgl]
              rfl
            · intro ver hver s hsmem
              exact hall ver hver s (List.mem_cons_of_mem _ hsmem)
        · have hverrest : ver ∈ rest := by
            rw [hv]
            exact List.mem_append.mpr (Or.inr (List.mem_cons_self _ _))
          cases hl10 : l1 with
          | nil =>
            exfalso
            rw [hl10] at hh
            simp only [List.nil_append] at hh
            have hold' := hold
            rw [show old = ObservedToSnapshot (osLookup r v0) from
              (List.cons_eq_cons.mp hh).1.symm] at hold'
            rw [hheadnomatch ver hverrest] at hold'
            cases hold'
          | cons h1 l1' =>
            rw [hl10] at hh hl1 hres
            have hh1 : h1 = ObservedToSnapshot (osLookup r v0) :=
              ((List.cons_eq_cons.mp (by simpa using hh)).1).symm
            have hobjh : obj.history = l1' ++ old :: l2 :=
              (List.cons_eq_cons.mp (by simpa using hh)).2
            constructor
            · rw [hrec]
              show (goVersions r (ObservedToSnapshot (osLookup r v0) :: obj.history)
                rest).head? = _
              rw [hres]
              simpa using hh1
            · right
              refine ⟨vs1, ver, vs2, l1', old, l2, hv, ?_, hobjh, ?_, hold, ?_⟩
              · intro v' hv' s hsmem
                exact hvs1 v' hv' s (List.mem_cons_of_mem _ hsmem)
              · intro s hsmem
                exact hl1 s (List.mem_cons_of_mem _ hsmem)
              · rw [hrec]
                show (goVersions r
                  (ObservedToSnapshot (osLookup r v0) :: obj.history) rest).tail = _
                rw [hres]
                simp

/-! ### Claim theorems, counterexamples and witnesses -/

/-- The comparator properties the specification states for the summary
sort: an absent type is never less; a present type is less than an absent
one; two present types compare by the generation-and-position
conjunction. -/
def summaryComparatorSpec (sc : List String) : Prop :=
  (∀ a b : Condition, inStringSlice sc a.type = none →
    summLess sc a b = false) ∧
  (∀ a b : Condition, (inStringSlice sc a.type).isSome = true →
    inStringSlice sc b.type = none → summLess sc a b = true) ∧
  (∀ (a b : Condition) (i j : Nat), inStringSlice sc a.type = some i →
    inStringSlice sc b.type = some j →
    (summLess sc a b = true ↔
      a.observedGeneration ≥ b.observedGeneration ∧ i < j))

/-- The Ready-status rule of the specification: the Ready condition set by
`summarize` carries the representative's status, forced to False for a
Remediated representative. -/
def readyFromRepresentative (obj : HelmRelease) (rep : Condition) : Prop :=
  ∃ rc : Condition,
    getCond ReadyCondition (summarize obj).conditions = some rc ∧
    rc.status =
      (if rep.type = RemediatedCondition then ConditionFalse else rep.status)

/-- C1 (amended): for every object whose condition sequence still holds a
representative after the deletion steps, `summarize` sorts with exactly
the comparator the specification describes, and the Ready status equals
the representative's status except that a Remediated representative
forces it to False.  (The amendment: the claim's non-empty condition
sequence must survive the TestSuccess/Remediated deletion steps; see the
counterexample.) -/
theorem summarize_comparator_and_ready (obj : HelmRelease) (rep : Condition)
    (hrep : representative obj = some rep) :
    summaryComparatorSpec (sumConds obj.test) ∧
      readyFromRepresentative obj rep := by
  constructor
  · refine ⟨?_, ?_, ?_⟩
    · intro a b ha
      exact summLess_absent ha b
    · intro a b ha hb
      exact summLess_present_absent ha hb
    · intro a b i j ha hb
      exact summLess_present_present ha hb
  · unfold representative at hrep
    cases hsrt : sortStable (summLess (sumConds obj.test))
        (summarizePrep obj).conditions with
    | nil => rw [hsrt] at hrep; cases hrep
    | cons c0 rest' =>
      rw [hsrt] at hrep
      have h' : some c0 = some rep := hrep
      have hceq : c0 = rep := by injection h'
      subst hceq
      exact ⟨readyFor obj.generation c0, getCond_ready_summarize hsrt, rfl⟩

/-- The object refuting C1 and C4 as literally stated: a sole TestSuccess
condition with testing disabled. -/
def exTestSuccessOnly : HelmRelease :=
  ⟨3, ⟨false, false⟩, [⟨TestSuccessCondition, ConditionTrue, "tr", "tm", 3⟩], []⟩

/-- C1 as literally stated fails: this object has a non-empty condition
sequence, yet `summarize` deletes its sole TestSuccess condition and sets
no Ready condition at all, so no representative determines a Ready
status. -/
theorem summarize_comparator_counterexample :
    exTestSuccessOnly.conditions ≠ [] ∧
    getCond ReadyCondition (summarize exTestSuccessOnly).conditions = none := by
  decide

/-- Witness object for C1 and C7: a sole Released=True condition. -/
def wReleased : HelmRelease :=
  ⟨2, ⟨false, false⟩, [⟨ReleasedCondition, ConditionTrue, "rr", "rm", 2⟩], []⟩

/-- Witness representative for C1. -/
def wReleasedCond : Condition := ⟨ReleasedCondition, ConditionTrue, "rr", "rm", 2⟩

/-- Witness for C1 at a concrete object. -/
theorem summarize_comparator_and_ready_witness :
    summaryComparatorSpec (sumConds wReleased.test) ∧
      readyFromRepresentative wReleased wReleasedCond :=
  summarize_comparator_and_ready wReleased wReleasedCond rfl

/-- C4 (amended): for every object on which a representative survives the
deletion steps, `summarize` sets Ready with the representative's reason
and message and with the object's current generation (not the
representative's), and deletes any Stalled condition whenever the
resulting status is True.  (The amendment: "at least one condition" must
survive the deletion steps; see the counterexample.) -/
theorem summarize_ready_fields (obj : HelmRelease) (rep : Condition)
    (hrep : representative obj = some rep) :
    getCond ReadyCondition (summarize obj).conditions =
      some { type := ReadyCondition, status := summarizeStatus rep,
             reason := rep.reason, message := rep.message,
             observedGeneration := obj.generation } ∧
    (summarizeStatus rep = ConditionTrue →
      getCond StalledCondition (summarize obj).conditions = none) := by
  unfold representative at hrep
  cases hsrt : sortStable (summLess (sumConds obj.test))
      (summarizePrep obj).conditions with
  | nil => rw [hsrt] at hrep; cases hrep
  | cons c0 rest' =>
    rw [hsrt] at hrep
    have h' : some c0 = some rep := hrep
    have hceq : c0 = rep := by injection h'
    subst hceq
    exact ⟨getCond_ready_summarize hsrt, fun hT => summarize_no_stalled hsrt hT⟩

/-- The object refuting C4 as literally stated. -/
def exTestSuccessOnly4 : HelmRelease :=
  ⟨7, ⟨false, false⟩, [⟨TestSuccessCondition, ConditionFalse, "t4", "m4", 1⟩], []⟩

/-- C4 as literally stated fails: this object has at least one condition,
yet `summarize` sets no Ready condition (its sole TestSuccess condition is
deleted first and nothing remains to summarize). -/
theorem summarize_ready_fields_counterexample :
    exTestSuccessOnly4.conditions ≠ [] ∧
    getCond ReadyCondition (summarize exTestSuccessOnly4).conditions = none := by
  decide

/-- Witness object for C4. -/
def wReady4 : HelmRelease :=
  ⟨5, ⟨false, false⟩, [⟨ReleasedCondition, ConditionTrue, "ok", "done", 4⟩], []⟩

/-- Witness representative for C4. -/
def wReady4Cond : Condition := ⟨ReleasedCondition, ConditionTrue, "ok", "done", 4⟩

/-- Witness for C4 at a concrete object: the Ready generation is the
object's (5), not the representative's (4). -/
theorem summarize_ready_fields_witness :
    getCond ReadyCondition (summarize wReady4).conditions =
      some { type := ReadyCondition, status := summarizeStatus wReady4Cond,
             reason := wReady4Cond.reason, message := wReady4Cond.message,
             observedGeneration := wReady4.generation } ∧
    (summarizeStatus wReady4Cond = ConditionTrue →
      getCond StalledCondition (summarize wReady4).conditions = none) :=
  summarize_ready_fields wReady4 wReady4Cond rfl

/-- C9 (amended): when the non-empty condition sequence holds no type from
the priority list and (when testing is disabled) no TestSuccess condition
either, the stable sort leaves the original order, and `summarize` sets
Ready copying status, reason and message from the first condition,
deleting Stalled when the resulting status is True.  (The amendment: a
TestSuccess condition present while testing is disabled is deleted before
sorting; see the counterexample.) -/
theorem summarize_unlisted_conditions (obj : HelmRelease) (c0 : Condition)
    (cs : List Condition) (hc : obj.conditions = c0 :: cs)
    (hnp : ∀ c ∈ obj.conditions,
      inStringSlice (sumConds obj.test) c.type = none)
    (hts : obj.test.enable = false →
      ∀ c ∈ obj.conditions, c.type ≠ TestSuccessCondition) :
    sortStable (summLess (sumConds obj.test)) obj.conditions = obj.conditions ∧
    getCond ReadyCondition (summarize obj).conditions =
      some { type := ReadyCondition, status := c0.status, reason := c0.reason,
             message := c0.message, observedGeneration := obj.generation } ∧
    (c0.status = ConditionTrue →
      getCond StalledCondition (summarize obj).conditions = none) := by
  have hsid : sortStable (summLess (sumConds obj.test)) obj.conditions =
      obj.conditions :=
    sortStable_eq_of_chain (chain'_notP hnp)
  have hdis : summarizeDisable obj = obj := by
    unfold summarizeDisable
    by_cases he : obj.test.enable = false
    · rw [delCond_eq_self (hts he)]
      split <;> rfl
    · have he' : obj.test.enable = true := by simpa using he
      rw [he']
      rfl
  have hnorem : getCond RemediatedCondition obj.conditions = none := by
    rw [getCond_eq_none_iff]
    intro c hcm hEq
    have hx := hnp c hcm
    rw [hEq, inStringSlice_eq_none_iff] at hx
    exact hx (remediated_mem_sumConds obj.test)
  have hprep : summarizePrep obj = obj := by
    unfold summarizePrep
    rw [hdis]
    unfold conditionallyDeleteRemediated
    rw [hnorem]
  have hsrt : sortStable (summLess (sumConds obj.test))
      (summarizePrep obj).conditions = c0 :: cs := by
    rw [hprep, hsid, hc]
  have hc0rem : c0.type ≠ RemediatedCondition := by
    intro hEq
    have hx := hnp c0 (by rw [hc]; exact List.mem_cons_self _ _)
    rw [hEq, inStringSlice_eq_none_iff] at hx
    exact hx (remediated_mem_sumConds obj.test)
  have hstat : summarizeStatus c0 = c0.status := summarizeStatus_of_ne hc0rem
  refine ⟨hsid, ?_, ?_⟩
  · rw [getCond_ready_summarize hsrt]
    unfold readyFor
    rw [hstat]
  · intro hT
    exact summarize_no_stalled hsrt (by rw [hstat]; exact hT)

/-- The object refuting C9 as literally stated: its sole condition's type
(TestSuccess, with testing disabled) is outside the priority list, yet
`summarize` deletes it and sets no Ready condition. -/
def exTestSuccessOnly9 : HelmRelease :=
  ⟨2, ⟨false, false⟩, [⟨TestSuccessCondition, ConditionTrue, "t9", "m9", 2⟩], []⟩

/-- C9 as literally stated fails: the hypotheses of the claim hold (a
non-empty sequence with no priority-list type), yet no Ready condition is
set. -/
theorem summarize_unlisted_counterexample :
    exTestSuccessOnly9.conditions ≠ [] ∧
    (∀ c ∈ exTestSuccessOnly9.conditions,
      inStringSlice (sumConds exTestSuccessOnly9.test) c.type = none) ∧
    getCond ReadyCondition (summarize exTestSuccessOnly9).conditions = none := by
  decide

/-- Witness object for C9: the specification's own example of a sole
Stalled condition of status True. -/
def wStalled : HelmRelease :=
  ⟨2, ⟨false, false⟩, [⟨StalledCondition, ConditionTrue, "SR", "SM", 1⟩], []⟩

/-- The witness representative for C9. -/
def wStalledCond : Condition := ⟨StalledCondition, ConditionTrue, "SR", "SM", 1⟩

/-- Witness for C9: the Stalled-only object ends the pass with Stalled
deleted and Ready True carrying Stalled's reason and message. -/
theorem summarize_unlisted_witness :
    sortStable (summLess (sumConds wStalled.test)) wStalled.conditions =
      wStalled.conditions ∧
    getCond ReadyCondition (summarize wStalled).conditions =
      some { type := ReadyCondition, status := wStalledCond.status,
             reason := wStalledCond.reason, message := wStalledCond.message,
             observedGeneration := wStalled.generation } ∧
    (wStalledCond.status = ConditionTrue →
      getCond StalledCondition (summarize wStalled).conditions = none) :=
  summarize_unlisted_conditions wStalled wStalledCond [] rfl (by decide) (by decide)

/-- C5: with testing disabled, no TestSuccess condition survives
`summarize`, whatever its prior status or generation; and the priority
list is the two- or three-element list exactly as the specification
states. -/
theorem summarize_testsuccess_and_priority :
    (∀ obj : HelmRelease, obj.test.enable = false →
      getCond TestSuccessCondition (summarize obj).conditions = none) ∧
    (∀ t : TestSpec, sumConds t =
      if t.enable && !t.ignoreFailures then
        [RemediatedCondition, TestSuccessCondition, ReleasedCondition]
      else [RemediatedCondition, ReleasedCondition]) := by
  constructor
  · intro obj h
    rw [getCond_eq_none_iff]
    exact summarize_no_testSuccess h
  · intro t
    rfl

/-- Witness object for C5: a TestSuccess condition beside a Released one,
testing disabled. -/
def wTestSuccess : HelmRelease :=
  ⟨1, ⟨false, false⟩,
    [⟨TestSuccessCondition, ConditionTrue, "t", "m", 1⟩,
     ⟨ReleasedCondition, ConditionTrue, "r", "m", 1⟩], []⟩

/-- Witness for C5 at a concrete object. -/
theorem summarize_testsuccess_witness :
    getCond TestSuccessCondition (summarize wTestSuccess).conditions = none :=
  summarize_testsuccess_and_priority.1 wTestSuccess rfl

/-- C3: the remediation lifecycle step deletes the Remediated condition
exactly under the specification's state machine, and is a no-op in every
other state. -/
theorem conditionallyDeleteRemediated_state_machine (obj : HelmRelease) :
    conditionallyDeleteRemediated obj =
      if specRemediationCleared obj then
        { obj with conditions := delCond RemediatedCondition obj.conditions }
      else obj :=
  cdr_eq_spec obj

/-- C6: merging an empty observed set is a no-op; merging a singleton set
prepends exactly one derived snapshot, growing the history by one entry
and leaving all pre-existing entries unchanged in order. -/
theorem recordOnObject_empty_single :
    (∀ obj : HelmRelease, recordOnObject [] obj = obj) ∧
    (∀ (k : Int) (o : Observation) (obj : HelmRelease),
      (recordOnObject [(k, o)] obj).history =
        ObservedToSnapshot o :: obj.history ∧
      (recordOnObject [(k, o)] obj).history.length =
        obj.history.length + 1) := by
  refine ⟨fun obj => rfl, fun k o obj => ⟨rfl, ?_⟩⟩
  show (ObservedToSnapshot o :: obj.history).length = obj.history.length + 1
  rfl

/-- C7 (amended): `summarize` is idempotent for every object with
type-distinct conditions whose representative is not a Stalled condition
of status True.  (The amendment: a Stalled=True representative is deleted
by the first pass itself, so the second pass can pick a different
representative; see the counterexample.) -/
theorem summarize_idempotent (obj : HelmRelease)
    (hnd : (obj.conditions.map Condition.type).Nodup)
    (hrep : (representative obj).all
      (fun c => !(c.type == StalledCondition && c.status == ConditionTrue)) = true) :
    summarize (summarize obj) = summarize obj :=
  summarize_idem_main obj hnd hrep

/-- The object refuting C7 as literally stated: a Stalled=True
representative followed by another condition. -/
def exStalledPair : HelmRelease :=
  ⟨1, ⟨false, false⟩,
    [⟨StalledCondition, ConditionTrue, "SR", "SM", 1⟩,
     ⟨"Reconciling", ConditionFalse, "RR", "RM", 1⟩], []⟩

/-- C7 as literally stated fails: the first pass reports Ready=True from
the Stalled condition and deletes it; the second pass then reports
Ready=False from the remaining condition. -/
theorem summarize_idempotent_counterexample :
    getCond ReadyCondition (summarize (summarize exStalledPair)).conditions ≠
      getCond ReadyCondition (summarize exStalledPair).conditions := by
  decide

/-- Witness object for C7: two type-distinct conditions with a Released
representative. -/
def wIdem : HelmRelease :=
  ⟨2, ⟨false, false⟩,
    [⟨ReleasedCondition, ConditionTrue, "w", "wm", 2⟩,
     ⟨StalledCondition, ConditionFalse, "s", "sm", 1⟩], []⟩

/-- Witness for C7 at a concrete object. -/
theorem summarize_idempotent_witness :
    summarize (summarize wIdem) = summarize wIdem :=
  summarize_idempotent wIdem (by decide) (by decide)

/-- C8: the event-metadata helper returns `none` when both inputs are
empty, otherwise a mapping holding the group-prefixed revision key exactly
when the revision is non-empty and the token key exactly when the token
is; and the log-appending helper returns the message unchanged on an
absent or empty buffer and otherwise appends the fixed header and the
buffered text. -/
theorem eventMeta_eventMessage_spec :
    eventMeta "" "" = none ∧
    eventMeta "v1" "" = some [(eventMetaGroupKey MetaRevisionKey, "v1")] ∧
    (∀ revision token : String, revision ≠ "" ∨ token ≠ "" →
      ∃ m, eventMeta revision token = some m ∧
        (((eventMetaGroupKey MetaRevisionKey, revision) ∈ m) ↔ revision ≠ "") ∧
        (((eventMetaGroupKey MetaTokenKey, token) ∈ m) ↔ token ≠ "")) ∧
    (∀ msg : String, eventMessageWithLog msg none = msg ∧
      eventMessageWithLog msg (some "") = msg) ∧
    (∀ msg log : String, 0 < log.length →
      eventMessageWithLog msg (some log) =
        msg ++ "\n\nLast Helm logs:\n\n" ++ log) := by
  refine ⟨rfl, rfl, ?_, ?_, ?_⟩
  · intro revision token h
    have hkey : eventMetaGroupKey MetaRevisionKey ≠ eventMetaGroupKey MetaTokenKey := by
      decide
    refine ⟨(if revision ≠ "" then [(eventMetaGroupKey MetaRevisionKey, revision)]
        else []) ++
      (if token ≠ "" then [(eventMetaGroupKey MetaTokenKey, token)] else []),
      by unfold eventMeta; rw [if_pos h], ?_, ?_⟩
    · by_cases hr : revision = ""
      · by_cases ht : token = ""
        · exact absurd h (by simp [hr, ht])
        · simp [hr, ht, hkey]
      · simp [hr]
    · by_cases ht : token = ""
      · by_cases hr : revision = ""
        · exact absurd h (by simp [hr, ht])
        · simp [hr, ht, Ne.symm hkey]
      · simp [ht]
  · intro msg
    exact ⟨rfl, rfl⟩
  · intro msg log h
    show (if log.length > 0 then msg ++ "\n\nLast Helm logs:\n\n" ++ log else msg) =
      msg ++ "\n\nLast Helm logs:\n\n" ++ log
    rw [if_pos h]

/-- Witness for C8 at concrete inputs. -/
theorem eventMeta_eventMessage_witness :
    (∃ m, eventMeta "v2" "" = some m ∧
      (((eventMetaGroupKey MetaRevisionKey, "v2") ∈ m) ↔ ("v2" : String) ≠ "") ∧
      (((eventMetaGroupKey MetaTokenKey, "") ∈ m) ↔ ("" : String) ≠ "")) ∧
    eventMessageWithLog "m" (some "log") =
      "m" ++ "\n\nLast Helm logs:\n\n" ++ "log" :=
  ⟨eventMeta_eventMessage_spec.2.2.1 "v2" "" (Or.inl (by decide)),
    eventMeta_eventMessage_spec.2.2.2.2 "m" "log" (by decide)⟩

/-- C10: the merge touches only the history (conditions, generation and
test spec unchanged), and the summarization touches only the conditions
(history, generation and test spec unchanged). -/
theorem frame_record_summarize :
    (∀ (r : ObservedSet) (obj : HelmRelease),
      (recordOnObject r obj).conditions = obj.conditions ∧
      (recordOnObject r obj).generation = obj.generation ∧
      (recordOnObject r obj).test = obj.test) ∧
    (∀ obj : HelmRelease,
      (summarize obj).history = obj.history ∧
      (summarize obj).generation = obj.generation ∧
      (summarize obj).test = obj.test) := by
  constructor
  · intro r obj
    obtain ⟨h, hh⟩ := recordOnObject_shape r obj
    rw [hh]
    exact ⟨rfl, rfl, rfl⟩
  · intro obj
    exact ⟨summarize_history obj, summarize_generation obj, summarize_test obj⟩

/-- Witness observed set for C2: two versions of the same release. -/
def wObserved : ObservedSet :=
  [(1, ⟨"app", "ns", 1, "i1"⟩), (2, ⟨"app", "ns", 2, "i2"⟩)]

/-- Witness object for C2: a history holding a snapshot matching
version 1, carrying a test-hooks marker. -/
def wHistory : HelmRelease :=
  ⟨1, ⟨false, false⟩, [], [⟨"app", "ns", 1, "old", some ["hook"]⟩]⟩

/-- Witness for C2 at a concrete observed set and object. -/
theorem recordOnObject_multi_witness : mergeSpec wObserved wHistory :=
  recordOnObject_multi wObserved wHistory (by decide) (by decide) (by decide)
